import Mathlib

/-!
Verification of the `bumv` (bulk move) rename-plan compiler.

The Rust source (`src/main.rs`) is shallowly embedded below:

* paths are strings (`RPath`), the filesystem is a flat association list
  from paths to file contents (`Fs`);
* `break_cycles_and_fix_ordering` is modelled over an explicit rename
  graph (`RGraph`), where each node carries its at-most-one outgoing
  edge, mirroring the `petgraph` graph whose out-degree is at most one
  by construction;
* fallible operations (the `unwrap`s on `file_name`/`to_str`, the
  executor's bail-outs) are modelled with `Option`/error results;
* `petgraph::algo::toposort` returns an implementation-defined
  topological order (and, on failure, an implementation-defined node of
  some cycle); the model fixes a concrete deterministic choice (least
  cyclic node index; topological order by descending chain height, ties
  by node index) and the main correctness results are proved from the
  abstract topological-order property alone, so they cover any such
  implementation-defined choice.
-/

/-! ### Filesystem model -/

/-- A filesystem path, compared by exact value (`PathBuf` in the source). -/
abbrev RPath := String

/-- A flat filesystem: existing paths together with their file contents. -/
abbrev Fs := List (RPath × String)

/-- Content stored at path `p`, if `p` exists (first match wins, so the
association list behaves as a finite partial function). -/
def fsGet (fs : Fs) (p : RPath) : Option String :=
  match fs.find? (fun e => e.1 == p) with
  | some e => some e.2
  | none => none

/-- Model of `RPath::exists`. -/
def pathExists (fs : Fs) (p : RPath) : Bool :=
  (fsGet fs p).isSome

/-- Remove path `p` from the filesystem (the source side of `fs::rename`). -/
def fsRemove (fs : Fs) (p : RPath) : Fs :=
  fs.filter (fun e => e.1 != p)

/-- Create path `p` with content `c` (the destination side of `fs::rename`). -/
def fsInsert (fs : Fs) (p : RPath) (c : String) : Fs :=
  (p, c) :: fs

theorem fsGet_fsInsert (fs : Fs) (p q : RPath) (c : String) :
    fsGet (fsInsert fs p c) q = if p = q then some c else fsGet fs q := by
  simp only [fsInsert, fsGet, List.find?]
  by_cases h : p = q
  · simp [h]
  · simp only [h, if_false]
    have : (p == q) = false := by simpa using h
    simp [this]

theorem fsGet_cons (e : RPath × String) (rest : Fs) (q : RPath) :
    fsGet (e :: rest) q = if e.1 = q then some e.2 else fsGet rest q := by
  by_cases h : e.1 = q
  · have : (e.1 == q) = true := by simpa using h
    simp [fsGet, List.find?, this, h]
  · have : (e.1 == q) = false := by simpa using h
    simp [fsGet, List.find?, this, h]

theorem fsGet_fsRemove (fs : Fs) (p q : RPath) :
    fsGet (fsRemove fs p) q = if p = q then none else fsGet fs q := by
  induction fs with
  | nil => simp [fsRemove, fsGet]
  | cons e rest ih =>
    by_cases hep : e.1 = p
    · have h1 : (e.1 != p) = false := by simp [hep]
      have hstep : fsRemove (e :: rest) p = fsRemove rest p := by
        simp [fsRemove, List.filter_cons, h1]
      rw [hstep, ih]
      by_cases hpq : p = q
      · simp [hpq]
      · have heq : e.1 ≠ q := fun h => hpq (hep.symm.trans h)
        rw [if_neg hpq, if_neg hpq, fsGet_cons, if_neg heq]
    · have h1 : (e.1 != p) = true := by simp [hep]
      have hstep : fsRemove (e :: rest) p = e :: fsRemove rest p := by
        simp [fsRemove, List.filter_cons, h1]
      rw [hstep]
      by_cases heq : e.1 = q
      · have hpq : p ≠ q := fun h => hep (heq.trans h.symm)
        rw [fsGet_cons, if_pos heq, if_neg hpq, fsGet_cons, if_pos heq]
      · rw [fsGet_cons, if_neg heq, ih, fsGet_cons, if_neg heq]

theorem pathExists_iff (fs : Fs) (p : RPath) :
    pathExists fs p = true ↔ fsGet fs p ≠ none := by
  unfold pathExists
  cases h : fsGet fs p <;> simp [Option.isSome]

/-! ### Editing-surface serialization

`create_editable_temp_file_content` joins the path renderings with `\n`;
`parse_temp_file_content` splits the edited content with Rust's
`str::lines` (segments terminated by `\n`, each such segment stripped of
one trailing `\r`; the final unterminated segment kept verbatim, dropped
when empty) and then drops all empty lines.  The functions are defined on
character lists and wrapped into `String`. -/

/-- Split a character list on `'\n'`; always returns at least one
(possibly empty) segment, mirroring `str::split('\n')`. -/
def splitNl : List Char → List (List Char)
  | [] => [[]]
  | c :: cs =>
    match splitNl cs with
    | [] => [[]]
    | l :: ls => if c = '\n' then [] :: l :: ls else (c :: l) :: ls

/-- Strip one trailing carriage return, as `str::lines` does for
`\n`-terminated segments. -/
def stripCr (l : List Char) : List Char :=
  if l.getLast? = some '\r' then l.dropLast else l

/-- Model of Rust `str::lines` on character lists: all `\n`-terminated
segments are stripped of one trailing `\r`; the final unterminated
segment is kept verbatim unless it is empty. -/
def rustLines (s : List Char) : List (List Char) :=
  let parts := splitNl s
  parts.dropLast.map stripCr ++
    (match parts.getLast? with
     | some l => if l = [] then [] else [l]
     | none => [])

/-- Join character lists with `'\n'` separators (`Vec::join("\n")`). -/
def joinNl : List (List Char) → List Char
  | [] => []
  | [x] => x
  | x :: y :: xs => x ++ '\n' :: joinNl (y :: xs)

/-- Model of `create_editable_temp_file_content`: one path per line
(`to_string_lossy` is the identity on the string paths of the model). -/
def create_editable_temp_file_content (files : List RPath) : String :=
  ⟨joinNl (files.map String.data)⟩

/-- Model of `parse_temp_file_content`: split into lines, skip empty
lines, and read each remaining line as a path. -/
def parse_temp_file_content (content : String) : List RPath :=
  ((rustLines content.data).filter (fun l => !l.isEmpty)).map String.mk

theorem splitNl_ne_nil (s : List Char) : splitNl s ≠ [] := by
  cases s with
  | nil => simp [splitNl]
  | cons c cs =>
    simp only [splitNl]
    cases h : splitNl cs with
    | nil => simp
    | cons l ls =>
      by_cases hc : c = '\n' <;> simp [hc]

theorem splitNl_append_of_no_nl (x : List Char) (rest : List Char)
    (hx : '\n' ∉ x) (l : List Char) (ls : List (List Char))
    (hrest : splitNl rest = l :: ls) :
    splitNl (x ++ rest) = (x ++ l) :: ls := by
  induction x with
  | nil => simpa using hrest
  | cons c cs ih =>
    have hc : c ≠ '\n' := fun h => hx (by simp [h])
    have hcs : '\n' ∉ cs := fun h => hx (by simp [h])
    have harr : splitNl (cs ++ rest) = (cs ++ l) :: ls := ih hcs
    simp only [List.cons_append, splitNl]
    rw [show cs.append rest = cs ++ rest from rfl, harr]
    simp [hc]

theorem splitNl_joinNl (files : List (List Char))
    (hnl : ∀ f ∈ files, '\n' ∉ f) (hne : files ≠ []) :
    splitNl (joinNl files) = files := by
  induction files with
  | nil => exact absurd rfl hne
  | cons x xs ih =>
    cases xs with
    | nil =>
      have hx : '\n' ∉ x := hnl x (by simp)
      have := splitNl_append_of_no_nl x [] hx [] [] (by simp [splitNl])
      simpa [joinNl] using this
    | cons y ys =>
      have hx : '\n' ∉ x := hnl x (by simp)
      have hrec : splitNl (joinNl (y :: ys)) = y :: ys :=
        ih (fun f hf => hnl f (by simp [hf])) (by simp)
      have hmid : splitNl ('\n' :: joinNl (y :: ys)) = [] :: y :: ys := by
        simp [splitNl, hrec]
      have := splitNl_append_of_no_nl x ('\n' :: joinNl (y :: ys)) hx
        [] (y :: ys) hmid
      simpa [joinNl] using this

theorem map_eq_self {α : Type} (f : α → α) (l : List α)
    (h : ∀ x ∈ l, f x = x) : l.map f = l := by
  induction l with
  | nil => rfl
  | cons x xs ih =>
    simp only [List.map_cons, h x (by simp), ih (fun y hy => h y (by simp [hy]))]

theorem string_eq_empty_of_data (s : String) (h : s.data = []) : s = "" := by
  cases s with
  | mk d =>
    simp only at h
    subst h
    rfl

theorem rustLines_joinNl (fl : List (List Char))
    (hnl : ∀ f ∈ fl, '\n' ∉ f)
    (hcr : ∀ f ∈ fl.dropLast, f.getLast? ≠ some '\r') :
    rustLines (joinNl fl) = fl.dropLast ++
      (match fl.getLast? with
       | some l => if l = [] then [] else [l]
       | none => []) := by
  cases hfl : fl with
  | nil => simp [rustLines, joinNl, splitNl]
  | cons x xs =>
    have hner : fl ≠ [] := by simp [hfl]
    have hparts : splitNl (joinNl fl) = fl := by
      rw [hfl]; exact splitNl_joinNl (x :: xs) (hfl ▸ hnl) (by simp)
    rw [← hfl]
    show (splitNl (joinNl fl)).dropLast.map stripCr ++ _ = _
    rw [hparts]
    congr 1
    apply map_eq_self
    intro f hf
    unfold stripCr
    rw [if_neg (hcr f hf)]

/-- Round-trip of the editing surface, amended: the string renderings must
be non-empty, contain no `'\n'`, and no rendering that is followed by
another may end in `'\r'` (Rust `str::lines` strips a `'\r'` that
immediately precedes the joining `'\n'`).  Additionally,
`parse_temp_file_content` never lets an empty line into its result. -/
theorem parse_create_roundtrip (files : List RPath)
    (hne : ∀ f ∈ files, f ≠ "")
    (hnl : ∀ f ∈ files, '\n' ∉ f.data)
    (hcr : ∀ f ∈ files.dropLast, f.data.getLast? ≠ some '\r') :
    parse_temp_file_content (create_editable_temp_file_content files) = files
      ∧ ∀ content : String, "" ∉ parse_temp_file_content content := by
  constructor
  · have hdata : (create_editable_temp_file_content files).data =
        joinNl (files.map String.data) := rfl
    unfold parse_temp_file_content
    rw [hdata]
    have hnl' : ∀ f ∈ files.map String.data, '\n' ∉ f := by
      intro f hf
      obtain ⟨g, hg, rfl⟩ := List.mem_map.mp hf
      exact hnl g hg
    have hcr' : ∀ f ∈ (files.map String.data).dropLast, f.getLast? ≠ some '\r' := by
      intro f hf
      rw [← List.map_dropLast] at hf
      obtain ⟨g, hg, rfl⟩ := List.mem_map.mp hf
      exact hcr g hg
    rw [rustLines_joinNl _ hnl' hcr']
    by_cases hner : files = []
    · subst hner; simp
    · have hlast : (files.map String.data).getLast? =
          some (files.getLast hner).data := by
        rw [List.getLast?_map, List.getLast?_eq_getLast _ hner]
        rfl
      rw [hlast]
      have hlmem : files.getLast hner ∈ files := List.getLast_mem hner
      have hlne : (files.getLast hner).data ≠ [] := by
        intro h
        exact hne _ hlmem (string_eq_empty_of_data _ h)
      have hmatch : (match some (files.getLast hner).data with
          | some l => if l = [] then [] else [l]
          | none => ([] : List (List Char))) = [(files.getLast hner).data] := by
        simp [hlne]
      rw [hmatch, ← List.map_dropLast]
      have hall : ∀ l ∈ files.dropLast.map String.data ++ [(files.getLast hner).data],
          (!l.isEmpty) = true := by
        intro l hl
        rcases List.mem_append.mp hl with h | h
        · obtain ⟨g, hg, rfl⟩ := List.mem_map.mp h
          have hgne : g ≠ "" := hne g (List.dropLast_subset _ hg)
          simp only [Bool.not_eq_true', List.isEmpty_eq_false]
          intro hd
          exact hgne (string_eq_empty_of_data _ hd)
        · simp only [List.mem_singleton] at h
          subst h
          simp only [Bool.not_eq_true', List.isEmpty_eq_false]
          exact hlne
      rw [List.filter_eq_self.mpr hall]
      rw [show files.dropLast.map String.data ++ [(files.getLast hner).data] =
          (files.dropLast ++ [files.getLast hner]).map String.data by
        simp]
      rw [List.dropLast_append_getLast hner]
      rw [List.map_map]
      apply map_eq_self
      intro s _
      cases s with
      | mk d => rfl
  · intro content hmem
    unfold parse_temp_file_content at hmem
    obtain ⟨l, hl, hstr⟩ := List.mem_map.mp hmem
    have hl' := List.of_mem_filter hl
    have : l = [] := by
      cases l with
      | nil => rfl
      | cons c cs => exact absurd (congrArg String.data hstr) (by simp)
    subst this
    simp at hl'

/-- The round-trip claim fails as stated: a path rendering may end in a
carriage return without containing a newline, and Rust `str::lines`
strips that `'\r'` when it immediately precedes the joining `'\n'`. -/
theorem parse_create_counterexample :
    (∀ f ∈ ["a\r", "b"], f ≠ "" ∧ '\n' ∉ f.data) ∧
      parse_temp_file_content
        (create_editable_temp_file_content ["a\r", "b"]) = ["a", "b"] ∧
      parse_temp_file_content
        (create_editable_temp_file_content ["a\r", "b"]) ≠ ["a\r", "b"] := by
  refine ⟨by decide, by decide, by decide⟩

/-! ### Executor (`rename_files`) -/

/-- Errors the modelled operations can raise. -/
inductive RenError where
  /-- A planned destination already exists at execution time. -/
  | collision (p : RPath)
  /-- The underlying `fs::rename` failed (here: missing source). -/
  | ioFailure (p : RPath)
  /-- The live listing diverged from the build-time snapshot. -/
  | concurrentModification
deriving DecidableEq, Repr

/-- Model of `rename_files`: walk the steps in order; abort with a
collision error when a destination exists (creating missing parent
directories does not affect the flat file map of the model), abort with
an `ioFailure` when the source is missing, otherwise move the content.
The returned filesystem is the state reached when the walk stops, so
already-applied steps are never rolled back. -/
def rename_files : List (RPath × RPath) → Fs → Fs × Option RenError
  | [], fs => (fs, none)
  | (old, new) :: rest, fs =>
    if pathExists fs new then (fs, some (RenError.collision new))
    else
      match fsGet fs old with
      | none => (fs, some (RenError.ioFailure old))
      | some c => rename_files rest (fsInsert (fsRemove fs old) new c)

theorem rename_files_append (a b : List (RPath × RPath)) (fs : Fs) :
    rename_files (a ++ b) fs =
      match rename_files a fs with
      | (fs', none) => rename_files b fs'
      | (fs', some e) => (fs', some e) := by
  induction a generalizing fs with
  | nil => simp [rename_files]
  | cons s rest ih =>
    obtain ⟨old, new⟩ := s
    simp only [List.cons_append, rename_files]
    by_cases h : pathExists fs new = true
    · simp [h]
    · simp only [Bool.not_eq_true] at h
      rw [h]
      cases hg : fsGet fs old with
      | none => simp
      | some c => simpa using ih _

/-- C6: if the steps before some step execute without error and that
step's destination exists in the filesystem state they produce, the
executor stops exactly there with a collision error: the result is the
state after the prior steps (none rolled back), the failing step's
source is untouched, and no later step runs. -/
theorem rename_files_collision_abort (pre post : List (RPath × RPath))
    (s d : RPath) (fs fs₁ : Fs)
    (hpre : rename_files pre fs = (fs₁, none))
    (hd : pathExists fs₁ d = true) :
    rename_files (pre ++ (s, d) :: post) fs = (fs₁, some (RenError.collision d)) := by
  rw [rename_files_append, hpre]
  simp [rename_files, hd]

theorem rename_files_collision_abort_witness :
    rename_files ([("a", "b")] ++ ("c", "x") :: [("q", "r")])
        [("a", "A"), ("c", "C"), ("x", "X")] =
      ([("b", "A"), ("c", "C"), ("x", "X")], some (RenError.collision "x")) :=
  rename_files_collision_abort [("a", "b")] [("q", "r")] "c" "x"
    [("a", "A"), ("c", "C"), ("x", "X")] [("b", "A"), ("c", "C"), ("x", "X")]
    (by decide) (by decide)

/-! ### Mapping validator (`RenamingRequest::try_new`) -/

/-- Validation failures of `RenamingRequest::try_new`. -/
inductive ValidationError where
  /-- "The number of files in the edited file does not match the original." -/
  | countMismatch
  /-- "There is a name clash in the edited files." -/
  | nameClash
deriving DecidableEq, Repr

namespace RenamingRequest

/-- Model of `RenamingRequest::try_new` after the editor ran: parse the
edited content, check the counts match, check the requested names are
unique (the `HashSet` size comparison is modelled by comparing with the
deduplicated list), and keep the zipped pairs whose sides differ.  The
function is pure: no filesystem mutation can occur during validation. -/
def try_new (original_filenames : List RPath)
    (modified_temp_file_content : String) :
    Except ValidationError (List (RPath × RPath)) :=
  let edited_filenames := parse_temp_file_content modified_temp_file_content
  if original_filenames.length ≠ edited_filenames.length then
    Except.error ValidationError.countMismatch
  else if edited_filenames.dedup.length ≠ edited_filenames.length then
    Except.error ValidationError.nameClash
  else
    Except.ok ((original_filenames.zip edited_filenames).filter
      (fun p => p.1 != p.2))

end RenamingRequest

theorem dedup_length_eq_iff_nodup {α : Type} [DecidableEq α] (l : List α) :
    l.dedup.length = l.length ↔ l.Nodup := by
  constructor
  · intro h
    have hsub : l.dedup.Sublist l := List.dedup_sublist l
    have : l.dedup = l := hsub.eq_of_length h
    rw [← this]
    exact List.nodup_dedup l
  · intro h
    rw [List.dedup_eq_self.mpr h]

/-- C7: validation fails exactly when the parsed edited listing has a
different length than the original listing or contains a duplicate
requested path; on success the mapping is exactly the positionally
zipped pairs with the no-op pairs dropped. -/
theorem try_new_spec (originals : List RPath) (content : String) :
    ((∃ e, RenamingRequest.try_new originals content = Except.error e) ↔
      (originals.length ≠ (parse_temp_file_content content).length ∨
        ¬ (parse_temp_file_content content).Nodup))
    ∧ (∀ m, RenamingRequest.try_new originals content = Except.ok m →
        m = (originals.zip (parse_temp_file_content content)).filter
          (fun p => p.1 != p.2)) := by
  unfold RenamingRequest.try_new
  by_cases hlen : originals.length ≠ (parse_temp_file_content content).length
  · rw [if_pos hlen]
    exact ⟨⟨fun _ => Or.inl hlen, fun _ => ⟨ValidationError.countMismatch, rfl⟩⟩,
      fun m hm => by cases hm⟩
  · rw [if_neg hlen]
    by_cases hdup : (parse_temp_file_content content).dedup.length ≠
        (parse_temp_file_content content).length
    · rw [if_pos hdup]
      have hnodup : ¬ (parse_temp_file_content content).Nodup := fun h =>
        hdup ((dedup_length_eq_iff_nodup _).mpr h)
      exact ⟨⟨fun _ => Or.inr hnodup, fun _ => ⟨ValidationError.nameClash, rfl⟩⟩,
        fun m hm => by cases hm⟩
    · rw [if_neg hdup]
      have hnodup : (parse_temp_file_content content).Nodup := by
        rw [Decidable.not_not] at hdup
        exact (dedup_length_eq_iff_nodup _).mp hdup
      refine ⟨⟨?_, ?_⟩, ?_⟩
      · rintro ⟨e, he⟩; cases he
      · intro h
        rcases h with h | h
        · exact absurd h hlen
        · exact absurd hnodup h
      · intro m hm
        injection hm with hm
        exact hm.symm


/-! ### A deterministic sort

`BumvConfiguration::file_list` sorts the discovered paths by their
string rendering, and the model of `petgraph::algo::toposort` below
sorts node indices by a chain-height key; both use the insertion sort
defined here. -/

def insertSorted {α : Type} (le : α → α → Bool) (x : α) : List α → List α
  | [] => [x]
  | y :: ys => if le x y then x :: y :: ys else y :: insertSorted le x ys

def isort {α : Type} (le : α → α → Bool) : List α → List α
  | [] => []
  | x :: xs => insertSorted le x (isort le xs)

theorem insertSorted_perm {α : Type} (le : α → α → Bool) (x : α) (l : List α) :
    List.Perm (insertSorted le x l) (x :: l) := by
  induction l with
  | nil => exact List.Perm.refl _
  | cons y ys ih =>
    unfold insertSorted
    by_cases h : le x y = true
    · rw [if_pos h]
    · rw [if_neg h]
      exact (ih.cons y).trans (List.Perm.swap x y ys)

theorem isort_perm {α : Type} (le : α → α → Bool) (l : List α) :
    List.Perm (isort le l) l := by
  induction l with
  | nil => exact List.Perm.refl _
  | cons x xs ih =>
    exact (insertSorted_perm le x _).trans (ih.cons x)

theorem mem_insertSorted {α : Type} (le : α → α → Bool) (x : α) (l : List α)
    (z : α) : z ∈ insertSorted le x l ↔ z = x ∨ z ∈ l := by
  rw [(insertSorted_perm le x l).mem_iff]
  simp

theorem insertSorted_pairwise {α : Type} (le : α → α → Bool)
    (htot : ∀ a b, le a b = true ∨ le b a = true)
    (htrans : ∀ a b c, le a b = true → le b c = true → le a c = true)
    (x : α) (l : List α) (hl : l.Pairwise (fun a b => le a b = true)) :
    (insertSorted le x l).Pairwise (fun a b => le a b = true) := by
  induction l with
  | nil => simp [insertSorted]
  | cons y ys ih =>
    rw [List.pairwise_cons] at hl
    unfold insertSorted
    by_cases h : le x y = true
    · rw [if_pos h]
      refine List.Pairwise.cons ?_ (List.Pairwise.cons hl.1 hl.2)
      intro z hz
      rcases List.mem_cons.mp hz with rfl | hz
      · exact h
      · exact htrans x y z h (hl.1 z hz)
    · rw [if_neg h]
      have hyx : le y x = true := (htot x y).resolve_left h
      refine List.Pairwise.cons ?_ (ih hl.2)
      intro z hz
      rcases (mem_insertSorted le x ys z).mp hz with rfl | hz
      · exact hyx
      · exact hl.1 z hz

theorem isort_pairwise {α : Type} (le : α → α → Bool)
    (htot : ∀ a b, le a b = true ∨ le b a = true)
    (htrans : ∀ a b c, le a b = true → le b c = true → le a c = true)
    (l : List α) :
    (isort le l).Pairwise (fun a b => le a b = true) := by
  induction l with
  | nil => simp [isort]
  | cons x xs ih => exact insertSorted_pairwise le htot htrans x _ ih

/-! ### Discovery and the consistency guard -/

/-- Model of `BumvConfiguration::file_list`: the discovery service
returns the duplicate-free list of existing paths, sorted by their
string rendering to "ensure deterministic order".  Directory traversal
and ignore-file filtering are external collaborators; the model exposes
exactly the determinism, uniqueness and order the core relies on. -/
def file_list (fs : Fs) : List RPath :=
  isort (fun a b => decide (a ≤ b)) (fs.map Prod.fst).dedup

namespace RenamingRequest

/-- Model of `RenamingRequest::ensure_files_did_not_change`: re-run the
discovery on the live filesystem and compare with the snapshot taken at
creation time, as lists (`Vec` equality in the source). -/
def ensure_files_did_not_change
    (all_files_at_creation_time : List RPath) (fs : Fs) : Bool :=
  all_files_at_creation_time == file_list fs

end RenamingRequest

namespace RenamingPlan

/-- Model of `RenamingPlan::execute`: check the guard, then run the
executor (the log file is outside the core). -/
def execute (all_files_at_creation_time : List RPath)
    (steps : List (RPath × RPath)) (fs : Fs) : Fs × Option RenError :=
  if RenamingRequest.ensure_files_did_not_change all_files_at_creation_time fs then
    rename_files steps fs
  else
    (fs, some RenError.concurrentModification)

end RenamingPlan

theorem string_le_total_bool (a b : String) :
    decide (a ≤ b) = true ∨ decide (b ≤ a) = true := by
  rcases le_total a b with h | h
  · exact Or.inl (decide_eq_true h)
  · exact Or.inr (decide_eq_true h)

theorem string_le_trans_bool (a b c : String) (h1 : decide (a ≤ b) = true)
    (h2 : decide (b ≤ c) = true) : decide (a ≤ c) = true :=
  decide_eq_true (le_trans (of_decide_eq_true h1) (of_decide_eq_true h2))

theorem file_list_sorted (fs : Fs) : (file_list fs).Sorted (· ≤ ·) := by
  have := isort_pairwise (fun a b : String => decide (a ≤ b))
    string_le_total_bool string_le_trans_bool (fs.map Prod.fst).dedup
  exact this.imp (fun h => of_decide_eq_true h)

theorem file_list_nodup (fs : Fs) : (file_list fs).Nodup :=
  ((isort_perm _ _).nodup_iff).mpr (List.nodup_dedup _)

theorem file_list_perm_dedup (fs : Fs) :
    List.Perm (file_list fs) (fs.map Prod.fst).dedup :=
  isort_perm _ _

/-- The sorted duplicate-free listing is a canonical representation of
the set of existing paths: two filesystems produce the same listing
exactly when the same paths exist in both. -/
theorem file_list_eq_iff (fs₀ fs₁ : Fs) :
    file_list fs₀ = file_list fs₁ ↔
      (fs₀.map Prod.fst).toFinset = (fs₁.map Prod.fst).toFinset := by
  rw [List.toFinset_eq_iff_perm_dedup]
  constructor
  · intro h
    exact ((file_list_perm_dedup fs₀).symm.trans
      (h ▸ file_list_perm_dedup fs₁ : List.Perm (file_list fs₀) (fs₁.map Prod.fst).dedup))
  · intro h
    refine List.eq_of_perm_of_sorted ?_ (file_list_sorted fs₀) (file_list_sorted fs₁)
    exact (file_list_perm_dedup fs₀).trans
      (h.trans (file_list_perm_dedup fs₁).symm)

theorem rename_files_no_concurrent (steps : List (RPath × RPath)) (fs : Fs) :
    (rename_files steps fs).2 ≠ some RenError.concurrentModification := by
  induction steps generalizing fs with
  | nil => simp [rename_files]
  | cons s rest ih =>
    obtain ⟨old, new⟩ := s
    unfold rename_files
    by_cases h : pathExists fs new = true
    · simp [h]
    · simp only [Bool.not_eq_true] at h
      rw [h]
      cases hg : fsGet fs old with
      | none => simp
      | some c => simpa using ih _

/-- C5: with the snapshot taken by the same discovery at mapping-build
time, execution aborts with a concurrent-modification error — leaving
the filesystem untouched, zero renames attempted — exactly when the set
of existing paths changed by at least one entry (the source compares the
two sorted duplicate-free listings with `Vec` equality, which on such
listings is order-independent set comparison). -/
theorem guard_aborts_iff (fs₀ fs₁ : Fs) (steps : List (RPath × RPath))
    (snapshot : List RPath) (hsnap : snapshot = file_list fs₀) :
    RenamingPlan.execute snapshot steps fs₁ =
        (fs₁, some RenError.concurrentModification) ↔
      (fs₀.map Prod.fst).toFinset ≠ (fs₁.map Prod.fst).toFinset := by
  subst hsnap
  unfold RenamingPlan.execute RenamingRequest.ensure_files_did_not_change
  by_cases h : file_list fs₀ = file_list fs₁
  · have hb : (file_list fs₀ == file_list fs₁) = true := by
      simpa using h
    rw [hb, if_pos rfl]
    constructor
    · intro hres
      exact absurd (congrArg Prod.snd hres) (rename_files_no_concurrent steps fs₁)
    · intro hset
      exact absurd ((file_list_eq_iff fs₀ fs₁).mp h) hset
  · have hb : (file_list fs₀ == file_list fs₁) = false := by
      simpa using h
    rw [hb]
    simp only [Bool.false_eq_true, if_false, true_iff]
    intro hset
    exact h ((file_list_eq_iff fs₀ fs₁).mpr hset)

theorem guard_aborts_iff_witness :
    RenamingPlan.execute (file_list [("a", "A")]) [("a", "b")]
        [("a", "A"), ("x", "X")] =
      ([("a", "A"), ("x", "X")], some RenError.concurrentModification) :=
  (guard_aborts_iff [("a", "A")] [("a", "A"), ("x", "X")] [("a", "b")]
    (file_list [("a", "A")]) rfl).mpr (by decide)

/-! ### Path-name helpers for placeholder generation

`break_cycles_and_fix_ordering` builds the placeholder
`"{}.n{}.tmp"` from `file_name()` of the chosen source and a counter,
via `Path::with_file_name`.  The models below follow the Unix `Path`
component semantics for ordinary file paths (the only paths discovery
yields): the final `/`-separated component, with `""` and `"."`
components ignored and a final `".."` having no file name. -/

/-- Decimal rendering of the counter (Rust `format!("{}", n)`). -/
def natDecimal (n : Nat) : String :=
  if n = 0 then "0" else ⟨((Nat.digits 10 n).reverse.map Nat.digitChar)⟩

/-- Split a character list on `'/'` (the structural counterpart of
`str::split('/')` used to read off path components). -/
def splitSlash : List Char → List (List Char)
  | [] => [[]]
  | c :: cs =>
    match splitSlash cs with
    | [] => [[]]
    | l :: ls => if c = '/' then [] :: l :: ls else (c :: l) :: ls

/-- Model of `Path::file_name().and_then(|n| n.to_str())`: with string
paths every name is valid UTF-8, so only the `file_name` half can fail. -/
def file_name (p : RPath) : Option String :=
  match (((splitSlash p.data).map (fun l => (⟨l⟩ : String))).filter
      (fun c => c != "" && c != ".")).getLast? with
  | some c => if c = ".." then none else some c
  | none => none

/-- The leading directory part of a path, up to and including the last
`'/'` (empty when the path is a bare file name). -/
def dirPrefix (p : RPath) : List Char :=
  (p.data.reverse.dropWhile (fun c => c ≠ '/')).reverse

/-- Model of `Path::with_file_name` on ordinary file paths: replace
everything after the last `'/'`. -/
def with_file_name (p : RPath) (name : String) : RPath :=
  ⟨dirPrefix p ++ name.data⟩

/-- The placeholder path `"{}.n{}.tmp"` built next to the source file. -/
def temp_name (source_file : RPath) (fname : String) (counter : Nat) : RPath :=
  with_file_name source_file (fname ++ ".n" ++ natDecimal counter ++ ".tmp")

/-- Model of the probing `loop`: try counters upward until the candidate
does not exist on disk; returns the accepted placeholder and its
counter.  The loop in the source is unbounded; the model gives it
`fs.length + 1` attempts, and `probe_temp_isSome` below proves this
fuel always suffices, so the model never cuts the loop short. -/
def probe_temp (fs : Fs) (source_file : RPath) (fname : String) :
    Nat → Nat → Option (RPath × Nat)
  | 0, _ => none
  | fuel + 1, counter =>
    let t := temp_name source_file fname counter
    if pathExists fs t then probe_temp fs source_file fname fuel (counter + 1)
    else some (t, counter)

/-! ### The rename graph

Each entry is one `petgraph` node: its `PathBuf` weight and its at most
one outgoing edge, stored as the target's node index.  Node indices are
positions in the list; `add_node` appends. -/

/-- The rename graph: node weights with their single optional out-edge. -/
abbrev RGraph := List (RPath × Option Nat)

/-- Weight of node `u` (out-of-range indices give a harmless default,
matching that the source never constructs them). -/
def nodePath (g : RGraph) (u : Nat) : RPath :=
  (g.getD u ("", none)).1

/-- The target of node `u`'s single outgoing edge, if any
(`graph.edges(u)` first element). -/
def outF (g : RGraph) (u : Nat) : Option Nat :=
  (g.getD u ("", none)).2

/-- Follow outgoing edges for `k` steps. -/
def iterOut (g : RGraph) : Nat → Nat → Option Nat
  | 0, u => some u
  | k + 1, u =>
    match outF g u with
    | none => none
    | some v => iterOut g k v

/-- Node `u` lies on a cycle: following edges returns to `u` within
`g.length` steps (the bound is sufficient, see `cycle_bound`). -/
def isCyclic (g : RGraph) (u : Nat) : Bool :=
  (List.range g.length).any (fun j => iterOut g (j + 1) u == some u)

/-- All nodes on cycles, in index order. -/
def cycleNodes (g : RGraph) : List Nat :=
  (List.range g.length).filter (fun u => isCyclic g u)

/-- Model of the failing `toposort`'s reported cycle node: the least
node index lying on a cycle (`petgraph` reports an
implementation-defined node of some cycle). -/
def findCycleNode (g : RGraph) : Option Nat :=
  (cycleNodes g).head?

/-- The number of nodes lying on cycles; the measure that each
cycle-break strictly decreases. -/
def cycleCard (g : RGraph) : Nat :=
  (cycleNodes g).length

theorem outF_none_of_ge (g : RGraph) (u : Nat) (h : g.length ≤ u) :
    outF g u = none := by
  unfold outF
  rw [List.getD_eq_default _ _ h]

theorem lt_of_outF_isSome (g : RGraph) (u : Nat) (h : outF g u ≠ none) :
    u < g.length := by
  by_contra hlt
  exact h (outF_none_of_ge g u (Nat.le_of_not_lt hlt))

theorem iterOut_succ (g : RGraph) (k u : Nat) :
    iterOut g (k + 1) u =
      match outF g u with
      | none => none
      | some v => iterOut g k v := rfl

theorem iterOut_add (g : RGraph) (a b u : Nat) :
    iterOut g (a + b) u = (iterOut g a u).bind (iterOut g b) := by
  induction a generalizing u with
  | zero => simp [iterOut]
  | succ a ih =>
    have hidx : a + 1 + b = (a + b) + 1 := by omega
    rw [hidx]
    cases h : outF g u with
    | none =>
      have l1 : iterOut g ((a + b) + 1) u = none := by rw [iterOut_succ, h]
      have l2 : iterOut g (a + 1) u = none := by rw [iterOut_succ, h]
      rw [l1, l2]
      rfl
    | some v =>
      have l1 : iterOut g ((a + b) + 1) u = iterOut g (a + b) v := by
        rw [iterOut_succ, h]
      have l2 : iterOut g (a + 1) u = iterOut g a v := by
        rw [iterOut_succ, h]
      rw [l1, l2, ih v]

theorem iterOut_none_add (g : RGraph) (a b u : Nat)
    (h : iterOut g a u = none) : iterOut g (a + b) u = none := by
  rw [iterOut_add, h]
  rfl

theorem iterOut_mul_cycle (g : RGraph) (k w : Nat)
    (h : iterOut g k w = some w) (t : Nat) :
    iterOut g (t * k) w = some w := by
  induction t with
  | zero => simp [iterOut]
  | succ t ih =>
    rw [show (t + 1) * k = t * k + k from by ring, iterOut_add, ih]
    exact h

theorem isCyclic_iff (g : RGraph) (u : Nat) :
    isCyclic g u = true ↔
      ∃ k, 1 ≤ k ∧ k ≤ g.length ∧ iterOut g k u = some u := by
  unfold isCyclic
  rw [List.any_eq_true]
  constructor
  · rintro ⟨j, hj, hiter⟩
    rw [List.mem_range] at hj
    exact ⟨j + 1, by omega, by omega, by simpa using hiter⟩
  · rintro ⟨k, hk1, hkn, hiter⟩
    refine ⟨k - 1, ?_, ?_⟩
    · rw [List.mem_range]; omega
    · rw [show k - 1 + 1 = k from by omega]
      simpa using hiter

theorem isCyclic_lt (g : RGraph) (u : Nat) (h : isCyclic g u = true) :
    u < g.length := by
  obtain ⟨k, hk1, _, hiter⟩ := (isCyclic_iff g u).mp h
  obtain ⟨k', rfl⟩ := Nat.exists_eq_add_of_le hk1
  rw [show 1 + k' = k' + 1 from by omega] at hiter
  by_contra hge
  have : outF g u = none := outF_none_of_ge g u (Nat.le_of_not_lt hge)
  unfold iterOut at hiter
  rw [this] at hiter
  cases hiter

theorem cycle_bound (g : RGraph) (w k : Nat) (hk : 1 ≤ k)
    (h : iterOut g k w = some w) :
    ∃ m, 1 ≤ m ∧ m ≤ g.length ∧ iterOut g m w = some w := by
  classical
  have hP : ∃ m, 1 ≤ m ∧ iterOut g m w = some w := ⟨k, hk, h⟩
  have hm : 1 ≤ Nat.find hP ∧ iterOut g (Nat.find hP) w = some w :=
    Nat.find_spec hP
  set m := Nat.find hP with hm_def
  have hmin : ∀ j, j < m → ¬(1 ≤ j ∧ iterOut g j w = some w) :=
    fun j hj => Nat.find_min hP hj
  refine ⟨m, hm.1, ?_, hm.2⟩
  have hsome : ∀ j, j ≤ m → (iterOut g j w).isSome := by
    intro j hj
    rcases hx : iterOut g j w with _ | x
    · exfalso
      have hnone : iterOut g m w = none := by
        rw [show m = j + (m - j) from by omega]
        exact iterOut_none_add g j (m - j) w hx
      rw [hm.2] at hnone
      cases hnone
    · rfl
  have hval_lt : ∀ j, j < m → ∀ x, iterOut g j w = some x → x < g.length := by
    intro j hj x hx
    have h1 : (iterOut g (j + 1) w).isSome := hsome (j + 1) (by omega)
    rw [iterOut_add g j 1 w, hx] at h1
    have h2 : (iterOut g 1 x).isSome := h1
    apply lt_of_outF_isSome
    intro ho
    rw [iterOut_succ, ho] at h2
    cases h2
  have key : ∀ i j, i < j → j < m → ∀ x,
      iterOut g i w = some x → iterOut g j w = some x → False := by
    intro i j hij hjm x hxi hxj
    have hmw : iterOut g m w = some w := hm.2
    rw [show m = j + (m - j) from by omega, iterOut_add, hxj] at hmw
    have hcalc : iterOut g (i + (m - j)) w = some w := by
      rw [iterOut_add, hxi]
      exact hmw
    exact hmin (i + (m - j)) (by omega) ⟨by omega, hcalc⟩
  by_contra hle
  push_neg at hle
  have hex : ∀ j : Fin m, ∃ x, iterOut g j.1 w = some x ∧ x < g.length := by
    intro j
    rcases hx : iterOut g j.1 w with _ | x
    · exfalso
      have := hsome j.1 (le_of_lt j.2)
      rw [hx] at this
      cases this
    · exact ⟨x, rfl, hval_lt j.1 j.2 x hx⟩
  choose val hval hlt using hex
  have hinj : Function.Injective (fun j : Fin m => (⟨val j, hlt j⟩ : Fin g.length)) := by
    intro i j hij
    simp only [Fin.mk.injEq] at hij
    rcases lt_trichotomy i.1 j.1 with hlt' | heq | hgt
    · exact absurd (key i.1 j.1 hlt' j.2 (val i) (hval i)
        (by rw [hij]; exact hval j)) not_false
    · exact Fin.ext heq
    · exact absurd (key j.1 i.1 hgt i.2 (val j) (hval j)
        (by rw [← hij]; exact hval i)) not_false
  have hcard := Fintype.card_le_of_injective _ hinj
  simp only [Fintype.card_fin] at hcard
  omega

/-! ### Breaking one cycle -/

/-- The graph after breaking the cycle at node `u`: `u`'s outgoing edge
is removed and replaced by an edge to a fresh placeholder node appended
at index `g.length` (`remove_edge`, `add_node`, `update_edge` in the
source). -/
def brokenGraph (g : RGraph) (u : Nat) (temp : RPath) : RGraph :=
  g.set u (nodePath g u, some g.length) ++ [(temp, none)]

/-- One iteration of the cycle-breaking `while` loop at reported cycle
node `u`: build the placeholder from `u`'s file name and the counter by
probing the filesystem, redirect `u`'s edge to the placeholder node,
and record the deferred step `(placeholder, original target)` together
with the audit entry `(placeholder, chosen counter)`.  `none` models a
panicking `unwrap`. -/
def breakAt (fs : Fs) (g : RGraph) (u : Nat) (counter : Nat) :
    Option (RGraph × (RPath × RPath) × (RPath × Nat) × Nat) :=
  match outF g u with
  | none => none
  | some v =>
    match file_name (nodePath g u) with
    | none => none
    | some fname =>
      match probe_temp fs (nodePath g u) fname (fs.length + 1) counter with
      | none => none
      | some (temp, chosen) =>
        some (brokenGraph g u temp,
          (temp, nodePath g v), (temp, chosen), chosen + 1)

theorem brokenGraph_length (g : RGraph) (u : Nat) (temp : RPath) :
    (brokenGraph g u temp).length = g.length + 1 := by
  simp [brokenGraph]

theorem outF_brokenGraph_self (g : RGraph) (u : Nat) (temp : RPath)
    (hu : u < g.length) :
    outF (brokenGraph g u temp) u = some g.length := by
  unfold outF brokenGraph
  rw [List.getD_eq_getElem?_getD,
    List.getElem?_append_left (by simpa using hu),
    List.getElem?_set_self (by simpa using hu)]
  rfl

theorem outF_brokenGraph_ne (g : RGraph) (u : Nat) (temp : RPath)
    (x : Nat) (hx : x ≠ u) :
    outF (brokenGraph g u temp) x = outF g x := by
  unfold outF brokenGraph
  rw [List.getD_eq_getElem?_getD, List.getD_eq_getElem?_getD]
  by_cases hlt : x < g.length
  · rw [List.getElem?_append_left (by simpa using hlt),
      List.getElem?_set_ne (Ne.symm hx)]
  · by_cases hEq : x = g.length
    · subst hEq
      have h1 : (g.set u (nodePath g u, some g.length) ++ [(temp, none)])[g.length]? =
          some (temp, none) := by
        rw [List.getElem?_append_right (by simp)]
        simp
      have h2 : g[g.length]? = none := List.getElem?_eq_none (by omega)
      rw [h1, h2]
      rfl
    · have hge : g.length < x := by omega
      have h1 : (g.set u (nodePath g u, some g.length) ++ [(temp, none)])[x]? = none := by
        rw [List.getElem?_eq_none]
        simp
        omega
      have h2 : g[x]? = none := by
        rw [List.getElem?_eq_none]
        omega
      rw [h1, h2]

theorem nodePath_brokenGraph_lt (g : RGraph) (u : Nat) (temp : RPath)
    (x : Nat) (hx : x < g.length) :
    nodePath (brokenGraph g u temp) x = nodePath g x := by
  unfold nodePath brokenGraph
  rw [List.getD_eq_getElem?_getD, List.getD_eq_getElem?_getD,
    List.getElem?_append_left (by simpa using hx)]
  by_cases hxu : x = u
  · subst hxu
    rw [List.getElem?_set_self (by simpa using hx)]
    have : g[x]? = some (g.getD x ("", none)) := by
      rw [List.getD_eq_getElem?_getD]
      cases h : g[x]? with
      | none =>
        exfalso
        rw [List.getElem?_eq_none_iff] at h
        omega
      | some e => rfl
    rw [this]
    rfl
  · rw [List.getElem?_set_ne (Ne.symm hxu)]

theorem nodePath_brokenGraph_last (g : RGraph) (u : Nat) (temp : RPath) :
    nodePath (brokenGraph g u temp) g.length = temp := by
  unfold nodePath brokenGraph
  rw [List.getD_eq_getElem?_getD]
  have h1 : (g.set u (nodePath g u, some g.length) ++ [(temp, none)])[g.length]? =
      some (temp, none) := by
    rw [List.getElem?_append_right (by simp)]
    simp
  rw [h1]
  rfl

theorem findCycleNode_some (g : RGraph) (u : Nat)
    (h : findCycleNode g = some u) : isCyclic g u = true ∧ u < g.length := by
  unfold findCycleNode at h
  cases hc : cycleNodes g with
  | nil => rw [hc] at h; cases h
  | cons a l =>
    rw [hc] at h
    injection h with h
    have hmem : u ∈ cycleNodes g := by
      rw [hc, ← h]
      simp
    unfold cycleNodes at hmem
    rw [List.mem_filter, List.mem_range] at hmem
    exact ⟨hmem.2, hmem.1⟩

theorem findCycleNode_none (g : RGraph)
    (h : findCycleNode g = none) : ∀ u, isCyclic g u = false := by
  intro u
  unfold findCycleNode at h
  rw [List.head?_eq_none_iff] at h
  by_contra hc
  rw [Bool.not_eq_false] at hc
  have hmem : u ∈ cycleNodes g := by
    unfold cycleNodes
    rw [List.mem_filter, List.mem_range]
    exact ⟨isCyclic_lt g u hc, hc⟩
  rw [h] at hmem
  cases hmem

theorem brokenGraph_no_u_traj (g : RGraph) (u : Nat) (temp : RPath)
    (hu : u < g.length) (k w : Nat) (hk : 1 ≤ k)
    (hcyc : iterOut (brokenGraph g u temp) k w = some w) :
    ∀ j, iterOut (brokenGraph g u temp) j w ≠ some u := by
  intro j hj
  set g' := brokenGraph g u temp with hg'
  have step1 : iterOut g' (j + 1) w = some g.length := by
    rw [iterOut_add, hj]
    show iterOut g' 1 u = some g.length
    rw [iterOut_succ, outF_brokenGraph_self g u temp hu]
    rfl
  have step2 : iterOut g' (j + 2) w = none := by
    rw [show j + 2 = (j + 1) + 1 from rfl, iterOut_add, step1]
    show iterOut g' 1 g.length = none
    rw [iterOut_succ, outF_brokenGraph_ne g u temp g.length (by omega),
      outF_none_of_ge g g.length (le_refl _)]
  have hmul : iterOut g' ((j + 2) * k) w = some w :=
    iterOut_mul_cycle g' k w hcyc (j + 2)
  have hge : j + 2 ≤ (j + 2) * k := Nat.le_mul_of_pos_right _ hk
  have hnone : iterOut g' ((j + 2) * k) w = none := by
    rw [show (j + 2) * k = (j + 2) + ((j + 2) * k - (j + 2)) from by omega]
    exact iterOut_none_add g' (j + 2) _ w step2
  rw [hmul] at hnone
  cases hnone

theorem iterOut_congr_avoid (g g' : RGraph) (u : Nat)
    (hagree : ∀ x, x ≠ u → outF g' x = outF g x) (k w : Nat)
    (havoid : ∀ j, iterOut g' j w ≠ some u) :
    iterOut g' k w = iterOut g k w := by
  induction k generalizing w with
  | zero => rfl
  | succ k ih =>
    have hwne : w ≠ u := by
      intro h
      exact havoid 0 (by rw [h]; rfl)
    rw [iterOut_succ, iterOut_succ, hagree w hwne]
    cases ho : outF g w with
    | none => rfl
    | some v =>
      apply ih
      intro j hjv
      apply havoid (j + 1)
      rw [iterOut_succ, hagree w hwne, ho]
      exact hjv

theorem brokenGraph_cycleCard (g : RGraph) (u : Nat) (temp : RPath)
    (hu : isCyclic g u = true) :
    cycleCard (brokenGraph g u temp) < cycleCard g := by
  have hul : u < g.length := isCyclic_lt g u hu
  set g' := brokenGraph g u temp with hg'
  have hagree : ∀ x, x ≠ u → outF g' x = outF g x :=
    fun x hx => outF_brokenGraph_ne g u temp x hx
  have hsub : ∀ w, isCyclic g' w = true → isCyclic g w = true ∧ w ≠ u := by
    intro w hw
    obtain ⟨k, hk1, _, hiter⟩ := (isCyclic_iff g' w).mp hw
    have havoid := brokenGraph_no_u_traj g u temp hul k w hk1 hiter
    have htrans : iterOut g k w = some w := by
      rw [← iterOut_congr_avoid g g' u hagree k w havoid]
      exact hiter
    obtain ⟨m, hm1, hmn, hmw⟩ := cycle_bound g w k hk1 htrans
    refine ⟨(isCyclic_iff g w).mpr ⟨m, hm1, hmn, hmw⟩, ?_⟩
    intro heq
    exact havoid 0 (by rw [heq]; rfl)
  have hu' : isCyclic g' u = false := by
    by_contra hc
    rw [Bool.not_eq_false] at hc
    obtain ⟨k, hk1, _, hiter⟩ := (isCyclic_iff g' u).mp hc
    exact brokenGraph_no_u_traj g u temp hul k u hk1 hiter 0 rfl
  have hnodup : (cycleNodes g).Nodup := (List.nodup_range _).filter _
  have hnodup' : (cycleNodes g').Nodup := (List.nodup_range _).filter _
  have humem : u ∈ (cycleNodes g).toFinset := by
    rw [List.mem_toFinset]
    unfold cycleNodes
    rw [List.mem_filter, List.mem_range]
    exact ⟨hul, hu⟩
  have hfinsub : (cycleNodes g').toFinset ⊆ (cycleNodes g).toFinset.erase u := by
    intro w hw
    rw [List.mem_toFinset] at hw
    unfold cycleNodes at hw
    rw [List.mem_filter, List.mem_range] at hw
    obtain ⟨hcyc, hne⟩ := hsub w hw.2
    rw [Finset.mem_erase, List.mem_toFinset]
    refine ⟨hne, ?_⟩
    unfold cycleNodes
    rw [List.mem_filter, List.mem_range]
    exact ⟨isCyclic_lt g w hcyc, hcyc⟩
  have hc1 : cycleCard g' = (cycleNodes g').toFinset.card := by
    unfold cycleCard
    rw [List.toFinset_card_of_nodup hnodup']
  have hc2 : cycleCard g = (cycleNodes g).toFinset.card := by
    unfold cycleCard
    rw [List.toFinset_card_of_nodup hnodup]
  rw [hc1, hc2]
  calc (cycleNodes g').toFinset.card
      ≤ ((cycleNodes g).toFinset.erase u).card := Finset.card_le_card hfinsub
    _ < (cycleNodes g).toFinset.card :=
        Finset.card_erase_lt_of_mem humem

theorem breakAt_spec (fs : Fs) (g : RGraph) (u c : Nat)
    (r : RGraph × (RPath × RPath) × (RPath × Nat) × Nat)
    (h : breakAt fs g u c = some r) :
    ∃ v fname temp chosen,
      outF g u = some v ∧
      file_name (nodePath g u) = some fname ∧
      probe_temp fs (nodePath g u) fname (fs.length + 1) c = some (temp, chosen) ∧
      r = (brokenGraph g u temp, (temp, nodePath g v), (temp, chosen), chosen + 1) := by
  unfold breakAt at h
  split at h
  · cases h
  · rename_i v ho
    split at h
    · cases h
    · rename_i fname hf
      split at h
      · cases h
      · rename_i temp chosen hp
        injection h with h
        exact ⟨v, fname, temp, chosen, ho, hf, hp, h.symm⟩

/-! ### The full compiler -/

/-- Get-or-insert a node for path `p` (the `nodes` map with
`entry(..).or_insert_with(|| graph.add_node(..))` in the source). -/
def addNode (g : RGraph) (p : RPath) : RGraph × Nat :=
  match g.findIdx? (fun e => e.1 == p) with
  | some i => (g, i)
  | none => (g ++ [(p, none)], g.length)

/-- Insert one mapping pair: get-or-insert both endpoints, then add the
edge from the source node to the destination node. -/
def addMapping (g : RGraph) (pr : RPath × RPath) : RGraph :=
  let s := addNode g pr.1
  let t := addNode s.1 pr.2
  t.1.set s.2 (nodePath t.1 s.2, some t.2)

/-- Build the initial rename graph from the mapping, in iteration
order. -/
def initGraph (renames : List (RPath × RPath)) : RGraph :=
  renames.foldl addMapping []

/-- The cycle-breaking `while` loop: as long as the topological sort
reports a cycle node, break the cycle there; terminates because every
break strictly decreases the number of nodes on cycles
(`brokenGraph_cycleCard`).  Returns the final graph, the deferred
steps, the audit list of generated placeholders with their counters,
and the final counter. -/
def breakLoop (fs : Fs) (g : RGraph) (counter : Nat)
    (deferred : List (RPath × RPath)) (gens : List (RPath × Nat)) :
    Option (RGraph × List (RPath × RPath) × List (RPath × Nat) × Nat) :=
  match hfind : findCycleNode g with
  | none => some (g, deferred, gens, counter)
  | some u =>
    match hbreak : breakAt fs g u counter with
    | none => none
    | some r =>
      breakLoop fs r.1 r.2.2.2 (deferred ++ [r.2.1]) (gens ++ [r.2.2.1])
termination_by cycleCard g
decreasing_by
  obtain ⟨v, fname, temp, chosen, _, _, _, hr⟩ := breakAt_spec fs g u counter r hbreak
  rw [hr]
  exact brokenGraph_cycleCard g u temp (findCycleNode_some g u hfind).1

/-- Chain height of a node: the number of edges followed before the
chain ends, computed with explicit fuel. -/
def heightF (g : RGraph) : Nat → Nat → Option Nat
  | 0, _ => none
  | fuel + 1, u =>
    match outF g u with
    | none => some 0
    | some v => (heightF g fuel v).map (· + 1)

/-- Total chain height; `g.length + 1` fuel always suffices on an
acyclic graph. -/
def hgt (g : RGraph) (u : Nat) : Nat :=
  (heightF g (g.length + 1) u).getD 0

/-- The model's topological order on node indices: descending chain
height, ties by index (any topological order is a valid model of
`petgraph::algo::toposort`). -/
def topoLe (g : RGraph) (a b : Nat) : Bool :=
  decide (hgt g b < hgt g a ∨ (hgt g a = hgt g b ∧ a ≤ b))

/-- Model of the successful `toposort(&graph, None)` call. -/
def toposortG (g : RGraph) : List Nat :=
  isort (topoLe g) (List.range g.length)

/-- Turn the sorted graph back into renaming steps: per node with an
outgoing edge, its single edge, in topological order — then reverse. -/
def planOf (g : RGraph) : List (RPath × RPath) :=
  ((toposortG g).filterMap
    (fun u => (outF g u).map (fun v => (nodePath g u, nodePath g v)))).reverse

/-- The compiler pipeline of `break_cycles_and_fix_ordering`, returning
also the final graph, the deferred steps, the generated placeholders
and the final counter. -/
def compileRenames (fs : Fs) (renames : List (RPath × RPath)) :
    Option (RGraph × List (RPath × RPath) × List (RPath × Nat) × Nat) :=
  breakLoop fs (initGraph renames) 0 [] []

/-- Model of `break_cycles_and_fix_ordering`: break all cycles, sort
topologically, reverse, then append the deferred steps. -/
def break_cycles_and_fix_ordering (fs : Fs) (renames : List (RPath × RPath)) :
    Option (List (RPath × RPath)) :=
  (compileRenames fs renames).map (fun r => planOf r.1 ++ r.2.1)

theorem parse_create_roundtrip_witness :
    parse_temp_file_content (create_editable_temp_file_content ["a", "b"]) =
        ["a", "b"]
      ∧ ∀ content : String, "" ∉ parse_temp_file_content content :=
  parse_create_roundtrip ["a", "b"] (by decide) (by decide) (by decide)

/-! ### Correctness of the topological order -/

theorem heightF_succ (g : RGraph) (fuel u : Nat) :
    heightF g (fuel + 1) u =
      match outF g u with
      | none => some 0
      | some v => (heightF g fuel v).map (· + 1) := rfl

theorem heightF_mono (g : RGraph) (fuel fuel' u h : Nat)
    (hle : fuel ≤ fuel') (hh : heightF g fuel u = some h) :
    heightF g fuel' u = some h := by
  induction fuel generalizing u h fuel' with
  | zero => cases hh
  | succ f ih =>
    obtain ⟨f', rfl⟩ : ∃ f', fuel' = f' + 1 :=
      ⟨fuel' - 1, by omega⟩
    rw [heightF_succ] at hh
    rw [heightF_succ]
    cases ho : outF g u with
    | none =>
      rw [ho] at hh
      dsimp only at hh ⊢
      exact hh
    | some v =>
      rw [ho] at hh
      dsimp only at hh ⊢
      cases hv : heightF g f v with
      | none =>
        rw [hv] at hh
        simp only [Option.map_none'] at hh
        cases hh
      | some hv' =>
        rw [hv] at hh
        rw [ih f' v hv' (by omega) hv]
        simp only [Option.map_some'] at hh ⊢
        exact hh

theorem heightF_eq_of_terminal (g : RGraph) (j u x fuel : Nat)
    (hiter : iterOut g j u = some x) (hterm : outF g x = none)
    (hfuel : j < fuel) :
    heightF g fuel u = some j := by
  induction j generalizing u fuel with
  | zero =>
    injection hiter with hiter
    subst hiter
    obtain ⟨f, rfl⟩ : ∃ f, fuel = f + 1 := ⟨fuel - 1, by omega⟩
    rw [heightF_succ, hterm]
  | succ j ih =>
    rw [iterOut_succ] at hiter
    cases ho : outF g u with
    | none => rw [ho] at hiter; cases hiter
    | some v =>
      rw [ho] at hiter
      obtain ⟨f, rfl⟩ : ∃ f, fuel = f + 1 := ⟨fuel - 1, by omega⟩
      rw [heightF_succ, ho]
      dsimp only
      rw [ih v f hiter (by omega)]
      rfl

theorem no_repeat_of_acyclic (g : RGraph)
    (hnc : ∀ w, isCyclic g w = false) (i j w x : Nat) (hij : i < j)
    (hi : iterOut g i w = some x) (hj : iterOut g j w = some x) : False := by
  have hx : iterOut g (j - i) x = some x := by
    have : iterOut g (i + (j - i)) w = some x := by
      rw [show i + (j - i) = j from by omega]
      exact hj
    rw [iterOut_add, hi] at this
    exact this
  obtain ⟨m, hm1, hmn, hmx⟩ := cycle_bound g x (j - i) (by omega) hx
  have : isCyclic g x = true := (isCyclic_iff g x).mpr ⟨m, hm1, hmn, hmx⟩
  rw [hnc x] at this
  cases this

theorem exists_terminal_of_acyclic (g : RGraph)
    (hnc : ∀ w, isCyclic g w = false) (u : Nat) :
    ∃ j x, j ≤ g.length ∧ iterOut g j u = some x ∧ outF g x = none := by
  by_contra hno
  push_neg at hno
  have hsome : ∀ j, j ≤ g.length + 1 → ∃ x, iterOut g j u = some x := by
    intro j hj
    induction j with
    | zero => exact ⟨u, rfl⟩
    | succ j ih =>
      obtain ⟨x, hx⟩ := ih (by omega)
      have hout : outF g x ≠ none := hno j x (by omega) hx
      rcases ho : outF g x with _ | y
      · exact absurd ho hout
      · refine ⟨y, ?_⟩
        rw [show j + 1 = j + 1 from rfl, iterOut_add, hx]
        show iterOut g 1 x = some y
        rw [iterOut_succ, ho]
        rfl
  have hlt : ∀ j, j ≤ g.length → ∀ x, iterOut g j u = some x → x < g.length := by
    intro j hj x hx
    have hout : outF g x ≠ none := hno j x hj hx
    exact lt_of_outF_isSome g x hout
  have hex : ∀ j : Fin (g.length + 1), ∃ x, iterOut g j.1 u = some x ∧ x < g.length := by
    intro j
    obtain ⟨x, hx⟩ := hsome j.1 (by omega)
    exact ⟨x, hx, hlt j.1 (by omega) x hx⟩
  choose val hval hvlt using hex
  have hinj : Function.Injective (fun j : Fin (g.length + 1) =>
      (⟨val j, hvlt j⟩ : Fin g.length)) := by
    intro i j hij
    simp only [Fin.mk.injEq] at hij
    rcases lt_trichotomy i.1 j.1 with hlt' | heq | hgt
    · exact absurd (no_repeat_of_acyclic g hnc i.1 j.1 u (val i) hlt' (hval i)
        (by rw [hij]; exact hval j)) not_false
    · exact Fin.ext heq
    · exact absurd (no_repeat_of_acyclic g hnc j.1 i.1 u (val j) hgt (hval j)
        (by rw [← hij]; exact hval i)) not_false
  have hcard := Fintype.card_le_of_injective _ hinj
  simp only [Fintype.card_fin] at hcard
  omega

theorem hgt_edge (g : RGraph) (hnc : ∀ w, isCyclic g w = false)
    (u v : Nat) (ho : outF g u = some v) :
    hgt g u = hgt g v + 1 := by
  obtain ⟨j, x, hj, hiter, hterm⟩ := exists_terminal_of_acyclic g hnc u
  have hju : heightF g (g.length + 1) u = some j :=
    heightF_eq_of_terminal g j u x _ hiter hterm (by omega)
  obtain ⟨j', rfl⟩ : ∃ j', j = j' + 1 := by
    refine ⟨j - 1, ?_⟩
    rcases Nat.eq_zero_or_pos j with hz | hp
    · subst hz
      injection hiter with hiter
      subst hiter
      rw [ho] at hterm
      cases hterm
    · omega
  have hiterv : iterOut g j' v = some x := by
    rw [show j' + 1 = 1 + j' from by omega, iterOut_add] at hiter
    have h1 : iterOut g 1 u = some v := by
      rw [iterOut_succ, ho]
      rfl
    rw [h1] at hiter
    exact hiter
  have hjv : heightF g (g.length + 1) v = some j' :=
    heightF_eq_of_terminal g j' v x _ hiterv hterm (by omega)
  unfold hgt
  rw [hju, hjv]
  rfl

theorem topoLe_total (g : RGraph) (a b : Nat) :
    topoLe g a b = true ∨ topoLe g b a = true := by
  unfold topoLe
  rcases lt_trichotomy (hgt g a) (hgt g b) with h | h | h
  · right; exact decide_eq_true (Or.inl h)
  · rcases Nat.le_total a b with hab | hab
    · left; exact decide_eq_true (Or.inr ⟨h, hab⟩)
    · right; exact decide_eq_true (Or.inr ⟨h.symm, hab⟩)
  · left; exact decide_eq_true (Or.inl h)

theorem topoLe_trans (g : RGraph) (a b c : Nat)
    (h1 : topoLe g a b = true) (h2 : topoLe g b c = true) :
    topoLe g a c = true := by
  unfold topoLe at *
  have h1' := of_decide_eq_true h1
  have h2' := of_decide_eq_true h2
  apply decide_eq_true
  rcases h1' with h1' | ⟨h1e, h1le⟩ <;> rcases h2' with h2' | ⟨h2e, h2le⟩
  · exact Or.inl (by omega)
  · exact Or.inl (by omega)
  · exact Or.inl (by omega)
  · exact Or.inr ⟨by omega, by omega⟩

theorem toposortG_perm (g : RGraph) :
    List.Perm (toposortG g) (List.range g.length) :=
  isort_perm _ _

theorem toposortG_mem (g : RGraph) (u : Nat) :
    u ∈ toposortG g ↔ u < g.length := by
  rw [(toposortG_perm g).mem_iff, List.mem_range]

theorem toposortG_nodup (g : RGraph) : (toposortG g).Nodup :=
  ((toposortG_perm g).nodup_iff).mpr (List.nodup_range _)

/-- On an acyclic graph, every edge goes from an earlier to a later
position in the model's topological order. -/
theorem toposortG_edge_order (g : RGraph)
    (hnc : ∀ w, isCyclic g w = false) (u v : Nat)
    (ho : outF g u = some v) (i j : Nat)
    (hi : i < (toposortG g).length) (hj : j < (toposortG g).length)
    (hu : (toposortG g).get ⟨i, hi⟩ = u) (hv : (toposortG g).get ⟨j, hj⟩ = v) :
    i < j := by
  have hedge : hgt g u = hgt g v + 1 := hgt_edge g hnc u v ho
  have hne : u ≠ v := by
    intro h
    rw [h] at hedge
    omega
  have hpw : (toposortG g).Pairwise (fun a b => topoLe g a b = true) :=
    isort_pairwise (topoLe g) (topoLe_total g) (topoLe_trans g) _
  rw [List.pairwise_iff_get] at hpw
  rcases lt_trichotomy i j with h | h | h
  · exact h
  · exfalso
    apply hne
    subst h
    rw [← hu, ← hv]
  · exfalso
    have := hpw ⟨j, hj⟩ ⟨i, hi⟩ h
    rw [hu, hv] at this
    have := of_decide_eq_true this
    rcases this with h' | ⟨h', _⟩ <;> omega

/-! ### Abstract correctness of executing a reverse-topological plan

`rename_files` is proved correct for any edge list `E` whose sources and
destinations are duplicate-free and which is listed in a topological
(ancestor-before-descendant) order — the properties the compiler
guarantees for its main steps — executed in reverse.  This covers any
implementation-defined topological order `petgraph` may return. -/

/-- Specification of the filesystem after all moves of `E` happened:
each destination holds its source's old content, vacated sources are
gone, everything else is untouched. -/
def movedGet (E : List (RPath × RPath)) (fs : Fs) (p : RPath) : Option String :=
  match E.find? (fun e => e.2 == p) with
  | some e => fsGet fs e.1
  | none =>
    if (E.find? (fun e => e.1 == p)).isSome then none else fsGet fs p

theorem fsGet_move (fs : Fs) (s d : RPath) (c : String) (p : RPath) :
    fsGet (fsInsert (fsRemove fs s) d c) p =
      if d = p then some c else if s = p then none else fsGet fs p := by
  rw [fsGet_fsInsert, fsGet_fsRemove]

theorem rename_files_cons (old new : RPath) (rest : List (RPath × RPath))
    (fs : Fs) :
    rename_files ((old, new) :: rest) fs =
      if pathExists fs new then (fs, some (RenError.collision new))
      else
        match fsGet fs old with
        | none => (fs, some (RenError.ioFailure old))
        | some c => rename_files rest (fsInsert (fsRemove fs old) new c) := rfl

theorem movedGet_dst_found (E : List (RPath × RPath)) (fs : Fs) (p : RPath)
    (e₀ : RPath × RPath) (h : E.find? (fun e => e.2 == p) = some e₀) :
    movedGet E fs p = fsGet fs e₀.1 := by
  unfold movedGet
  rw [h]

theorem movedGet_src_found (E : List (RPath × RPath)) (fs : Fs) (p : RPath)
    (hd : E.find? (fun e => e.2 == p) = none)
    (hs : (E.find? (fun e => e.1 == p)).isSome = true) :
    movedGet E fs p = none := by
  unfold movedGet
  rw [hd]
  simp [hs]

theorem movedGet_not_found (E : List (RPath × RPath)) (fs : Fs) (p : RPath)
    (hd : E.find? (fun e => e.2 == p) = none)
    (hs : E.find? (fun e => e.1 == p) = none) :
    movedGet E fs p = fsGet fs p := by
  unfold movedGet
  rw [hd]
  simp [hs]

theorem rename_reverse_exec (E : List (RPath × RPath)) (fs : Fs)
    (hsrc : (E.map Prod.fst).Nodup)
    (hdst : (E.map Prod.snd).Nodup)
    (hfwd : ∀ i j, (hi : i < E.length) → (hj : j < E.length) →
      (E.get ⟨i, hi⟩).2 = (E.get ⟨j, hj⟩).1 → i < j)
    (hex : ∀ e ∈ E, fsGet fs e.1 ≠ none)
    (hfree : ∀ e ∈ E, e.2 ∉ E.map Prod.fst → fsGet fs e.2 = none) :
    ∃ fs', rename_files E.reverse fs = (fs', none) ∧
      ∀ p, fsGet fs' p = movedGet E fs p := by
  induction E using List.reverseRecOn generalizing fs with
  | nil =>
    refine ⟨fs, by simp [rename_files], ?_⟩
    intro p
    simp [movedGet, List.find?]
  | append_singleton E' e ih =>
    obtain ⟨s, d⟩ := e
    -- position of the last element
    have hlen : E'.length < (E' ++ [(s, d)]).length := by simp
    have hlast : (E' ++ [(s, d)]).get ⟨E'.length, hlen⟩ = (s, d) := by
      rw [List.get_eq_getElem]
      simp
    -- the last destination is no source at all
    have hd_not_src : d ∉ (E' ++ [(s, d)]).map Prod.fst := by
      intro hmem
      obtain ⟨x, hx, hxd⟩ := List.mem_map.mp hmem
      obtain ⟨⟨j, hj⟩, hget⟩ := List.mem_iff_get.mp hx
      have hlt := hfwd E'.length j hlen hj (by rw [hlast, hget, hxd])
      have hjlen : j < E'.length + 1 := by simpa using hj
      omega
    have hsd : s ≠ d := by
      intro h
      apply hd_not_src
      rw [← h]
      simp
    -- nodup decompositions
    have hsrc_parts := List.nodup_append.mp (by simpa using hsrc)
    have hdst_parts := List.nodup_append.mp (by simpa using hdst)
    have hs_not_src' : s ∉ E'.map Prod.fst := by
      intro h
      exact hsrc_parts.2.2 h (by simp)
    have hd_not_dst' : d ∉ E'.map Prod.snd := by
      intro h
      exact hdst_parts.2.2 h (by simp)
    have hd_not_src' : d ∉ E'.map Prod.fst := by
      intro h
      exact hd_not_src (by rw [List.map_append]; exact List.mem_append_left _ h)
    -- the first executed step succeeds
    have hdfree : fsGet fs d = none :=
      hfree (s, d) (by simp) hd_not_src
    obtain ⟨c, hc⟩ : ∃ c, fsGet fs s = some c := by
      rcases h : fsGet fs s with _ | c
      · exact absurd h (hex (s, d) (by simp))
      · exact ⟨c, rfl⟩
    have hpe : pathExists fs d = false := by
      unfold pathExists
      rw [hdfree]
      rfl
    have hrev : (E' ++ [(s, d)]).reverse = (s, d) :: E'.reverse := by
      simp
    have hstep : rename_files ((E' ++ [(s, d)]).reverse) fs =
        rename_files E'.reverse (fsInsert (fsRemove fs s) d c) := by
      rw [hrev, rename_files_cons, hpe]
      simp only [Bool.false_eq_true, if_false]
      rw [hc]
    set fs₁ := fsInsert (fsRemove fs s) d c with hfs₁
    -- hypotheses for the induction on the remaining steps
    have hfwd' : ∀ i j, (hi : i < E'.length) → (hj : j < E'.length) →
        (E'.get ⟨i, hi⟩).2 = (E'.get ⟨j, hj⟩).1 → i < j := by
      intro i j hi hj heq
      have hi' : i < (E' ++ [(s, d)]).length := by simp; omega
      have hj' : j < (E' ++ [(s, d)]).length := by simp; omega
      apply hfwd i j hi' hj'
      rw [List.get_eq_getElem, List.get_eq_getElem,
        List.getElem_append_left, List.getElem_append_left]
      rw [List.get_eq_getElem, List.get_eq_getElem] at heq
      exact heq
    have hex' : ∀ e ∈ E', fsGet fs₁ e.1 ≠ none := by
      intro e' he'
      rw [hfs₁, fsGet_move]
      have h1 : d ≠ e'.1 := by
        intro h
        exact hd_not_src' (h ▸ List.mem_map_of_mem Prod.fst he')
      have h2 : s ≠ e'.1 := by
        intro h
        exact hs_not_src' (h ▸ List.mem_map_of_mem Prod.fst he')
      rw [if_neg h1, if_neg h2]
      exact hex e' (List.mem_append_left _ he')
    have hfree' : ∀ e ∈ E', e.2 ∉ E'.map Prod.fst → fsGet fs₁ e.2 = none := by
      intro e' he' hnot
      rw [hfs₁, fsGet_move]
      have h1 : d ≠ e'.2 := by
        intro h
        exact hd_not_dst' (h ▸ List.mem_map_of_mem Prod.snd he')
      rw [if_neg h1]
      by_cases h2 : s = e'.2
      · rw [if_pos h2]
      · rw [if_neg h2]
        apply hfree e' (List.mem_append_left _ he')
        rw [List.map_append]
        intro hmem
        rcases List.mem_append.mp hmem with h | h
        · exact hnot h
        · simp at h
          exact h2 h.symm
    obtain ⟨fs₂, hrun, hchar⟩ := ih fs₁ hsrc_parts.1 hdst_parts.1 hfwd' hex' hfree'
    refine ⟨fs₂, by rw [hstep, hrun], ?_⟩
    intro p
    rw [hchar p]
    cases hfoundD : E'.find? (fun e => e.2 == p) with
    | some e₀ =>
      have hE : (E' ++ [(s, d)]).find? (fun e => e.2 == p) = some e₀ := by
        rw [List.find?_append, hfoundD, Option.or_some]
      have he₀ : e₀ ∈ E' := List.mem_of_find?_eq_some hfoundD
      have h1 : d ≠ e₀.1 := by
        intro h
        exact hd_not_src' (h ▸ List.mem_map_of_mem Prod.fst he₀)
      have h2 : s ≠ e₀.1 := by
        intro h
        exact hs_not_src' (h ▸ List.mem_map_of_mem Prod.fst he₀)
      rw [movedGet_dst_found E' fs₁ p e₀ hfoundD,
        movedGet_dst_found _ fs p e₀ hE, hfs₁, fsGet_move,
        if_neg h1, if_neg h2]
    | none =>
      by_cases hpd : d = p
      · subst hpd
        have hE : (E' ++ [(s, d)]).find? (fun e => e.2 == d) = some (s, d) := by
          rw [List.find?_append, hfoundD, Option.none_or]
          simp [List.find?]
        have hnosrc : E'.find? (fun e => e.1 == d) = none := by
          rw [List.find?_eq_none]
          intro x hx hbeq
          exact hd_not_src' ((eq_of_beq hbeq) ▸ List.mem_map_of_mem Prod.fst hx)
        rw [movedGet_dst_found _ fs d (s, d) hE,
          movedGet_not_found E' fs₁ d hfoundD hnosrc, hfs₁, fsGet_move,
          if_pos rfl, hc]
      · have hE : (E' ++ [(s, d)]).find? (fun e => e.2 == p) = none := by
          rw [List.find?_append, hfoundD, Option.none_or]
          have hb : ((s, d).2 == p) = false := by simpa using hpd
          simp [List.find?, hb]
        cases hfoundS : E'.find? (fun e => e.1 == p) with
        | some e₁ =>
          have hsrcE : ((E' ++ [(s, d)]).find? (fun e => e.1 == p)).isSome = true := by
            rw [List.find?_append, hfoundS, Option.or_some]
            rfl
          rw [movedGet_src_found E' fs₁ p hfoundD (by rw [hfoundS]; rfl),
            movedGet_src_found _ fs p hE hsrcE]
        | none =>
          by_cases hps : s = p
          · subst hps
            have hsrcE : ((E' ++ [(s, d)]).find? (fun e => e.1 == s)).isSome = true := by
              rw [List.find?_append, hfoundS, Option.none_or]
              simp [List.find?]
            rw [movedGet_src_found _ fs s hE hsrcE,
              movedGet_not_found E' fs₁ s hfoundD hfoundS, hfs₁, fsGet_move,
              if_neg (fun h => hsd h.symm), if_pos rfl]
          · have hsrcE : (E' ++ [(s, d)]).find? (fun e => e.1 == p) = none := by
              rw [List.find?_append, hfoundS, Option.none_or]
              have hb : ((s, d).1 == p) = false := by simpa using hps
              simp [List.find?, hb]
            rw [movedGet_not_found _ fs p hE hsrcE,
              movedGet_not_found E' fs₁ p hfoundD hfoundS, hfs₁, fsGet_move,
              if_neg hpd, if_neg hps]

theorem find?_cons_eq {α : Type} (f : α → Bool) (a : α) (l : List α) :
    (a :: l).find? f = if f a = true then some a else l.find? f := by
  by_cases h : f a = true
  · rw [List.find?_cons_of_pos _ h, if_pos h]
  · rw [List.find?_cons_of_neg _ h, if_neg h]

/-- Executing the deferred steps in order: all sources hold content, all
destinations are free, no source of one step is the destination of
another — so every step succeeds, in any order. -/
theorem rename_deferred_exec (D : List (RPath × RPath)) (fs : Fs)
    (hsrc : (D.map Prod.fst).Nodup)
    (hdst : (D.map Prod.snd).Nodup)
    (hex : ∀ e ∈ D, fsGet fs e.1 ≠ none)
    (hfree : ∀ e ∈ D, fsGet fs e.2 = none)
    (hsep : ∀ e ∈ D, ∀ e' ∈ D, e.1 ≠ e'.2) :
    ∃ fs', rename_files D fs = (fs', none) ∧
      ∀ p, fsGet fs' p = movedGet D fs p := by
  induction D generalizing fs with
  | nil =>
    refine ⟨fs, by simp [rename_files], ?_⟩
    intro p
    simp [movedGet, List.find?]
  | cons e D' ih =>
    obtain ⟨t, dd⟩ := e
    have htdd : t ≠ dd := hsep (t, dd) (by simp) (t, dd) (by simp)
    have hddfree : fsGet fs dd = none := hfree (t, dd) (by simp)
    obtain ⟨c, hc⟩ : ∃ c, fsGet fs t = some c := by
      rcases h : fsGet fs t with _ | c
      · exact absurd h (hex (t, dd) (by simp))
      · exact ⟨c, rfl⟩
    have hpe : pathExists fs dd = false := by
      unfold pathExists
      rw [hddfree]
      rfl
    have hstep : rename_files ((t, dd) :: D') fs =
        rename_files D' (fsInsert (fsRemove fs t) dd c) := by
      rw [rename_files_cons, hpe]
      simp only [Bool.false_eq_true, if_false]
      rw [hc]
    set fs₁ := fsInsert (fsRemove fs t) dd c with hfs₁
    have hsrc' : (D'.map Prod.fst).Nodup := (List.nodup_cons.mp hsrc).2
    have hdst' : (D'.map Prod.snd).Nodup := (List.nodup_cons.mp hdst).2
    have ht_not_src' : t ∉ D'.map Prod.fst := (List.nodup_cons.mp hsrc).1
    have hdd_not_dst' : dd ∉ D'.map Prod.snd := (List.nodup_cons.mp hdst).1
    have hex' : ∀ e ∈ D', fsGet fs₁ e.1 ≠ none := by
      intro e' he'
      rw [hfs₁, fsGet_move]
      have h1 : dd ≠ e'.1 := fun h =>
        hsep e' (by simp [he']) (t, dd) (by simp) h.symm
      have h2 : t ≠ e'.1 := fun h =>
        ht_not_src' (h ▸ List.mem_map_of_mem Prod.fst he')
      rw [if_neg h1, if_neg h2]
      exact hex e' (by simp [he'])
    have hfree' : ∀ e ∈ D', fsGet fs₁ e.2 = none := by
      intro e' he'
      rw [hfs₁, fsGet_move]
      have h1 : dd ≠ e'.2 := fun h =>
        hdd_not_dst' (h ▸ List.mem_map_of_mem Prod.snd he')
      have h2 : t ≠ e'.2 := hsep (t, dd) (by simp) e' (by simp [he'])
      rw [if_neg h1, if_neg h2]
      exact hfree e' (by simp [he'])
    have hsep' : ∀ e ∈ D', ∀ e' ∈ D', e.1 ≠ e'.2 := by
      intro a ha b hb
      exact hsep a (by simp [ha]) b (by simp [hb])
    obtain ⟨fs₂, hrun, hchar⟩ := ih fs₁ hsrc' hdst' hex' hfree' hsep'
    refine ⟨fs₂, by rw [hstep, hrun], ?_⟩
    intro p
    rw [hchar p]
    cases hfoundD : D'.find? (fun e => e.2 == p) with
    | some e₀ =>
      have he₀ : e₀ ∈ D' := List.mem_of_find?_eq_some hfoundD
      have he : e₀.2 = p := by
        have hb := List.find?_some hfoundD
        exact eq_of_beq (by simpa using hb)
      have hpd : dd ≠ p := by
        intro h
        exact hdd_not_dst' ((h.trans he.symm) ▸ List.mem_map_of_mem Prod.snd he₀)
      have hbd : ((t, dd).2 == p) = false := by simpa using hpd
      have hE : ((t, dd) :: D').find? (fun e => e.2 == p) = some e₀ := by
        rw [find?_cons_eq]
        simp [hbd, hfoundD]
      rw [movedGet_dst_found D' fs₁ p e₀ hfoundD,
        movedGet_dst_found _ fs p e₀ hE, hfs₁, fsGet_move]
      have h1 : dd ≠ e₀.1 := fun h =>
        hsep e₀ (by simp [he₀]) (t, dd) (by simp) h.symm
      have h2 : t ≠ e₀.1 := fun h =>
        ht_not_src' (h ▸ List.mem_map_of_mem Prod.fst he₀)
      rw [if_neg h1, if_neg h2]
    | none =>
      by_cases hpd : dd = p
      · subst hpd
        have hE : ((t, dd) :: D').find? (fun e => e.2 == dd) = some (t, dd) := by
          rw [find?_cons_eq]
          simp
        have hnosrc : D'.find? (fun e => e.1 == dd) = none := by
          rw [List.find?_eq_none]
          intro x hx hbeq
          exact hsep x (by simp [hx]) (t, dd) (by simp) (eq_of_beq hbeq)
        rw [movedGet_dst_found _ fs dd (t, dd) hE,
          movedGet_not_found D' fs₁ dd hfoundD hnosrc, hfs₁, fsGet_move,
          if_pos rfl, hc]
      · have hbd : ((t, dd).2 == p) = false := by simpa using hpd
        have hE : ((t, dd) :: D').find? (fun e => e.2 == p) = none := by
          rw [find?_cons_eq]
          simp [hbd, hfoundD]
        cases hfoundS : D'.find? (fun e => e.1 == p) with
        | some e₁ =>
          have hsrcE : (((t, dd) :: D').find? (fun e => e.1 == p)).isSome = true := by
            rw [find?_cons_eq]
            by_cases hb : ((t, dd).1 == p) = true
            · simp [hb]
            · rw [Bool.not_eq_true] at hb
              simp [hb, hfoundS]
          rw [movedGet_src_found D' fs₁ p hfoundD (by rw [hfoundS]; rfl),
            movedGet_src_found _ fs p hE hsrcE]
        | none =>
          by_cases hps : t = p
          · subst hps
            have hsrcE : (((t, dd) :: D').find? (fun e => e.1 == t)).isSome = true := by
              rw [find?_cons_eq]
              simp
            rw [movedGet_src_found _ fs t hE hsrcE,
              movedGet_not_found D' fs₁ t hfoundD hfoundS, hfs₁, fsGet_move,
              if_neg (fun h => htdd h.symm), if_pos rfl]
          · have hb1 : ((t, dd).1 == p) = false := by simpa using hps
            have hsrcE : ((t, dd) :: D').find? (fun e => e.1 == p) = none := by
              rw [find?_cons_eq]
              simp [hb1, hfoundS]
            rw [movedGet_not_found _ fs p hE hsrcE,
              movedGet_not_found D' fs₁ p hfoundD hfoundS, hfs₁, fsGet_move,
              if_neg hpd, if_neg hps]

/-! ### Placeholder names: decimal counters and uniqueness -/

theorem digitChar_inj_lt : ∀ a < 10, ∀ b < 10,
    Nat.digitChar a = Nat.digitChar b → a = b := by decide

theorem digitChar_ne_dot_n : ∀ a < 10,
    Nat.digitChar a ≠ '.' ∧ Nat.digitChar a ≠ 'n' := by decide

theorem map_inj_on_eq {α β : Type} (f : α → β) (l₁ l₂ : List α)
    (h : l₁.map f = l₂.map f)
    (hinj : ∀ x ∈ l₁, ∀ y ∈ l₂, f x = f y → x = y) : l₁ = l₂ := by
  induction l₁ generalizing l₂ with
  | nil => cases l₂ with
    | nil => rfl
    | cons y ys => cases h
  | cons x xs ih =>
    cases l₂ with
    | nil => cases h
    | cons y ys =>
      simp only [List.map_cons, List.cons.injEq] at h
      have hxy : x = y := hinj x (by simp) y (by simp) h.1
      subst hxy
      rw [ih ys h.2 (fun a ha b hb => hinj a (by simp [ha]) b (by simp [hb]))]

theorem natDecimal_data_no_dot_n (n : Nat) :
    ∀ ch ∈ (natDecimal n).data, ch ≠ '.' ∧ ch ≠ 'n' := by
  intro ch hch
  unfold natDecimal at hch
  by_cases h : n = 0
  · rw [if_pos h] at hch
    have hch0 : ch = '0' := by simpa using hch
    subst hch0
    decide
  · rw [if_neg h] at hch
    simp only [String.data] at hch
    obtain ⟨d, hd, rfl⟩ := List.mem_map.mp hch
    have hd10 : d < 10 :=
      Nat.digits_lt_base (by omega) (List.mem_reverse.mp hd)
    exact digitChar_ne_dot_n d hd10

theorem natDecimal_inj (a b : Nat) (h : natDecimal a = natDecimal b) :
    a = b := by
  have hdata := congrArg String.data h
  unfold natDecimal at hdata
  by_cases ha : a = 0 <;> by_cases hb : b = 0
  · rw [ha, hb]
  · exfalso
    rw [if_pos ha, if_neg hb] at hdata
    simp only [String.data] at hdata
    rcases hrev : (Nat.digits 10 b).reverse with _ | ⟨d, ds⟩
    · rw [hrev] at hdata
      cases hdata
    · rw [hrev] at hdata
      simp only [List.map_cons, List.cons.injEq] at hdata
      have hds : ds = [] := by
        rcases ds with _ | _
        · rfl
        · simp at hdata
      subst hds
      have hdigits : Nat.digits 10 b = [d] := by
        have := congrArg List.reverse hrev
        simpa using this
      have hd10 : d < 10 := Nat.digits_lt_base (by omega) (by rw [hdigits]; simp)
      have hd0 : d = 0 := by
        apply digitChar_inj_lt d hd10 0 (by omega)
        rw [← hdata.1]
        rfl
      subst hd0
      have hb0 : b = Nat.ofDigits 10 [0] :=
        (Nat.ofDigits_digits 10 b).symm.trans (by rw [hdigits])
      simp [Nat.ofDigits] at hb0
      exact hb hb0
  · exfalso
    rw [if_neg ha, if_pos hb] at hdata
    simp only [String.data] at hdata
    rcases hrev : (Nat.digits 10 a).reverse with _ | ⟨d, ds⟩
    · rw [hrev] at hdata
      cases hdata
    · rw [hrev] at hdata
      simp only [List.map_cons, List.cons.injEq] at hdata
      have hds : ds = [] := by
        rcases ds with _ | _
        · rfl
        · simp at hdata
      subst hds
      have hdigits : Nat.digits 10 a = [d] := by
        have := congrArg List.reverse hrev
        simpa using this
      have hd10 : d < 10 := Nat.digits_lt_base (by omega) (by rw [hdigits]; simp)
      have hd0 : d = 0 := by
        apply digitChar_inj_lt d hd10 0 (by omega)
        rw [hdata.1]
        rfl
      subst hd0
      have ha0 : a = Nat.ofDigits 10 [0] :=
        (Nat.ofDigits_digits 10 a).symm.trans (by rw [hdigits])
      simp [Nat.ofDigits] at ha0
      exact ha ha0
  · rw [if_neg ha, if_neg hb] at hdata
    simp only [String.data] at hdata
    have hrev : (Nat.digits 10 a).reverse = (Nat.digits 10 b).reverse := by
      apply map_inj_on_eq Nat.digitChar _ _ hdata
      intro x hx y hy hxy
      exact digitChar_inj_lt x
        (Nat.digits_lt_base (by omega) (List.mem_reverse.mp hx)) y
        (Nat.digits_lt_base (by omega) (List.mem_reverse.mp hy)) hxy
    have hdig : Nat.digits 10 a = Nat.digits 10 b := by
      have := congrArg List.reverse hrev
      simpa using this
    calc a = Nat.ofDigits 10 (Nat.digits 10 a) := (Nat.ofDigits_digits 10 a).symm
      _ = Nat.ofDigits 10 (Nat.digits 10 b) := by rw [hdig]
      _ = b := Nat.ofDigits_digits 10 b

theorem temp_name_data (src : RPath) (fname : String) (c : Nat) :
    (temp_name src fname c).data =
      (dirPrefix src ++ fname.data) ++
        ('.' :: 'n' :: ((natDecimal c).data ++ ['.', 't', 'm', 'p'])) := by
  unfold temp_name with_file_name
  simp only [String.data_append]
  show dirPrefix src ++ (fname.data ++ ['.', 'n'] ++ (natDecimal c).data ++
      ['.', 't', 'm', 'p']) = _
  simp [List.append_assoc]

theorem mid_parse_side (A₁ A₂ D₁ D₂ : List Char) (h₁ : 'n' ∉ D₁)
    (hlt : D₂.length < D₁.length)
    (heq : A₁ ++ '.' :: 'n' :: D₁ = A₂ ++ '.' :: 'n' :: D₂) : False := by
  have hR : D₁.reverse ++ 'n' :: '.' :: A₁.reverse =
      D₂.reverse ++ 'n' :: '.' :: A₂.reverse := by
    have hrev := congrArg List.reverse heq
    simp only [List.reverse_append, List.reverse_cons, List.append_assoc,
      List.cons_append, List.nil_append] at hrev
    simpa using hrev
  have hk1 : (D₁.reverse ++ 'n' :: '.' :: A₁.reverse)[D₂.length]? =
      D₁.reverse[D₂.length]? :=
    List.getElem?_append_left (by simpa using hlt)
  have hk2 : (D₂.reverse ++ 'n' :: '.' :: A₂.reverse)[D₂.length]? =
      some 'n' := by
    rw [List.getElem?_append_right (by simp)]
    simp
  rw [hR, hk2] at hk1
  have : 'n' ∈ D₁.reverse := List.getElem?_mem hk1.symm
  exact h₁ (List.mem_reverse.mp this)

theorem mid_parse_unique (A₁ A₂ D₁ D₂ : List Char)
    (h₁ : 'n' ∉ D₁) (h₂ : 'n' ∉ D₂)
    (heq : A₁ ++ '.' :: 'n' :: D₁ = A₂ ++ '.' :: 'n' :: D₂) :
    A₁ = A₂ ∧ D₁ = D₂ := by
  rcases lt_trichotomy D₁.length D₂.length with hlt | hlen | hgt
  · exact absurd (mid_parse_side A₂ A₁ D₂ D₁ h₂ hlt heq.symm) not_false
  · obtain ⟨hA, hD⟩ := List.append_inj' heq (by simp [hlen])
    refine ⟨hA, ?_⟩
    simpa using hD
  · exact absurd (mid_parse_side A₁ A₂ D₁ D₂ h₁ hgt heq) not_false

/-- Two placeholders generated with different counters are different paths,
whatever their source files were. -/
theorem temp_name_counter_inj (src₁ src₂ : RPath) (f₁ f₂ : String)
    (c₁ c₂ : Nat) (h : temp_name src₁ f₁ c₁ = temp_name src₂ f₂ c₂) :
    c₁ = c₂ := by
  have hdata := congrArg String.data h
  rw [temp_name_data, temp_name_data] at hdata
  have hmid := mid_parse_unique _ _ _ _
    (by
      intro hmem
      rcases List.mem_append.mp hmem with hd | hd
      · exact (natDecimal_data_no_dot_n c₁ 'n' hd).2 rfl
      · simp at hd)
    (by
      intro hmem
      rcases List.mem_append.mp hmem with hd | hd
      · exact (natDecimal_data_no_dot_n c₂ 'n' hd).2 rfl
      · simp at hd)
    hdata
  have htail := List.append_cancel_right hmid.2
  exact natDecimal_inj c₁ c₂ (by
    apply String.ext
    exact htail)

theorem probe_temp_spec (fs : Fs) (src : RPath) (fname : String)
    (fuel c : Nat) (t : RPath) (ch : Nat)
    (h : probe_temp fs src fname fuel c = some (t, ch)) :
    c ≤ ch ∧ ch < c + fuel ∧ t = temp_name src fname ch ∧
      pathExists fs t = false ∧
      ∀ c', c ≤ c' → c' < ch → pathExists fs (temp_name src fname c') = true := by
  induction fuel generalizing c with
  | zero => cases h
  | succ fuel ih =>
    unfold probe_temp at h
    dsimp only at h
    cases hpe : pathExists fs (temp_name src fname c) with
    | true =>
      rw [hpe] at h
      simp only [if_true] at h
      obtain ⟨h1, h2, h3, h4, h5⟩ := ih (c + 1) h
      refine ⟨by omega, by omega, h3, h4, ?_⟩
      intro c' hc1 hc2
      rcases Nat.eq_or_lt_of_le hc1 with rfl | hlt
      · exact hpe
      · exact h5 c' (by omega) hc2
    | false =>
      rw [hpe] at h
      simp only [Bool.false_eq_true, if_false] at h
      injection h with h
      injection h with ht hch
      subst ht
      subst hch
      exact ⟨le_refl _, by omega, rfl, hpe, fun c' h1 h2 => by omega⟩

theorem probe_temp_none (fs : Fs) (src : RPath) (fname : String)
    (fuel c : Nat) (h : probe_temp fs src fname fuel c = none) :
    ∀ i, i < fuel → pathExists fs (temp_name src fname (c + i)) = true := by
  induction fuel generalizing c with
  | zero => intro i hi; omega
  | succ fuel ih =>
    unfold probe_temp at h
    dsimp only at h
    cases hpe : pathExists fs (temp_name src fname c) with
    | true =>
      rw [hpe] at h
      simp only [if_true] at h
      intro i hi
      cases i with
      | zero => simpa using hpe
      | succ i =>
        have := ih (c + 1) h i (by omega)
        rw [show c + (i + 1) = c + 1 + i from by omega]
        exact this
    | false =>
      rw [hpe] at h
      simp only [Bool.false_eq_true, if_false] at h
      cases h

theorem pathExists_mem (fs : Fs) (p : RPath) (h : pathExists fs p = true) :
    p ∈ fs.map Prod.fst := by
  unfold pathExists fsGet at h
  cases hf : fs.find? (fun e => e.1 == p) with
  | none => rw [hf] at h; cases h
  | some e =>
    have he : e ∈ fs := List.mem_of_find?_eq_some hf
    have hep : e.1 = p := by
      have := List.find?_some hf
      exact eq_of_beq (by simpa using this)
    rw [← hep]
    exact List.mem_map_of_mem Prod.fst he

theorem probe_temp_isSome (fs : Fs) (src : RPath) (fname : String) (c : Nat) :
    (probe_temp fs src fname (fs.length + 1) c).isSome = true := by
  cases hp : probe_temp fs src fname (fs.length + 1) c with
  | some r => rfl
  | none =>
    exfalso
    have hall := probe_temp_none fs src fname (fs.length + 1) c hp
    have hinj : Function.Injective (fun i : Nat => temp_name src fname (c + i)) := by
      intro i j hij
      have := temp_name_counter_inj src src fname fname (c + i) (c + j) hij
      omega
    have hnodup : ((List.range (fs.length + 1)).map
        (fun i => temp_name src fname (c + i))).Nodup :=
      (List.nodup_range _).map hinj
    have hsub : ((List.range (fs.length + 1)).map
        (fun i => temp_name src fname (c + i))).toFinset ⊆
        (fs.map Prod.fst).toFinset := by
      intro x hx
      rw [List.mem_toFinset] at hx
      obtain ⟨i, hi, rfl⟩ := List.mem_map.mp hx
      rw [List.mem_range] at hi
      rw [List.mem_toFinset]
      exact pathExists_mem fs _ (hall i hi)
    have hc1 : ((List.range (fs.length + 1)).map
        (fun i => temp_name src fname (c + i))).toFinset.card = fs.length + 1 := by
      rw [List.toFinset_card_of_nodup hnodup]
      simp
    have hc2 := Finset.card_le_card hsub
    have hc3 : (fs.map Prod.fst).toFinset.card ≤ fs.length := by
      have := List.toFinset_card_le (l := fs.map Prod.fst)
      simpa using this
    omega

/-! ### Facts about the initial graph construction -/

theorem getD_append_cases {α : Type} (l : List α) (e : α) (d : α) (x : Nat) :
    (l ++ [e]).getD x d =
      if x < l.length then l.getD x d
      else if x = l.length then e else d := by
  rw [List.getD_eq_getElem?_getD]
  by_cases h1 : x < l.length
  · rw [if_pos h1, List.getElem?_append_left (by simpa using h1),
      List.getD_eq_getElem?_getD]
  · rw [if_neg h1]
    by_cases h2 : x = l.length
    · subst h2
      rw [List.getElem?_append_right (by simp)]
      simp
    · rw [List.getElem?_eq_none (by simp; omega), if_neg h2]
      rfl

theorem getD_set_cases {α : Type} (l : List α) (i : Nat) (a : α) (d : α)
    (x : Nat) :
    (l.set i a).getD x d =
      if x = i ∧ i < l.length then a else l.getD x d := by
  rw [List.getD_eq_getElem?_getD, List.getD_eq_getElem?_getD]
  by_cases h1 : x = i
  · subst h1
    by_cases h2 : x < l.length
    · rw [if_pos ⟨rfl, h2⟩, List.getElem?_set_self (by simpa using h2)]
      rfl
    · rw [if_neg (fun h => h2 h.2), List.set_eq_of_length_le (by omega)]
  · rw [if_neg (fun h => h1 h.1), List.getElem?_set_ne (Ne.symm h1)]

theorem findIdx?_spec {α : Type} (f : α → Bool) (l : List α) (i : Nat)
    (h : l.findIdx? f = some i) :
    ∃ hlt : i < l.length, f (l.get ⟨i, hlt⟩) = true := by
  obtain ⟨hlt, hidx⟩ := List.findIdx?_eq_some_iff_findIdx_eq.mp h
  subst hidx
  exact ⟨hlt, by simpa using @List.findIdx_getElem _ f l hlt⟩

theorem nodePath_lt (g : RGraph) (u : Nat) (h : u < g.length) :
    nodePath g u = (g.get ⟨u, h⟩).1 := by
  unfold nodePath
  rw [List.getD_eq_getElem?_getD, List.getElem?_eq_getElem h]
  rfl

theorem nodePath_mem_map_fst (g : RGraph) (u : Nat) (h : u < g.length) :
    nodePath g u ∈ g.map Prod.fst := by
  rw [nodePath_lt g u h]
  exact List.mem_map_of_mem Prod.fst (List.get_mem g u h)

theorem addNode_cases (g : RGraph) (p : RPath) :
    (∃ i, addNode g p = (g, i) ∧ i < g.length ∧ nodePath g i = p) ∨
    (addNode g p = (g ++ [(p, none)], g.length) ∧ p ∉ g.map Prod.fst) := by
  unfold addNode
  cases h : g.findIdx? (fun e => e.1 == p) with
  | some i =>
    left
    obtain ⟨hlt, hf⟩ := findIdx?_spec _ _ _ h
    refine ⟨i, rfl, hlt, ?_⟩
    rw [nodePath_lt g i hlt]
    exact eq_of_beq (by simpa using hf)
  | none =>
    right
    refine ⟨rfl, ?_⟩
    intro hmem
    obtain ⟨e, he, hep⟩ := List.mem_map.mp hmem
    have hfalse := List.findIdx?_eq_none_iff.mp h e he
    rw [hep] at hfalse
    simp at hfalse

theorem nodePath_append_last (g : RGraph) (e : RPath × Option Nat) :
    nodePath (g ++ [e]) g.length = e.1 := by
  unfold nodePath
  rw [getD_append_cases]
  simp

theorem nodePath_append_lt (g : RGraph) (e : RPath × Option Nat) (x : Nat)
    (hx : x < g.length) : nodePath (g ++ [e]) x = nodePath g x := by
  unfold nodePath
  rw [getD_append_cases, if_pos hx]

theorem outF_append_last (g : RGraph) (e : RPath × Option Nat) :
    outF (g ++ [e]) g.length = e.2 := by
  unfold outF
  rw [getD_append_cases]
  simp

theorem outF_append_lt (g : RGraph) (e : RPath × Option Nat) (x : Nat)
    (hx : x < g.length) : outF (g ++ [e]) x = outF g x := by
  unfold outF
  rw [getD_append_cases, if_pos hx]

theorem nodePath_setOut (g : RGraph) (i : Nat) (w : Option Nat) (x : Nat) :
    nodePath (g.set i (nodePath g i, w)) x = nodePath g x := by
  unfold nodePath
  rw [getD_set_cases]
  by_cases h : x = i ∧ i < g.length
  · rw [if_pos h]
    obtain ⟨rfl, _⟩ := h
    rfl
  · rw [if_neg h]

theorem outF_setOut_self (g : RGraph) (i : Nat) (w : Option Nat)
    (hi : i < g.length) : outF (g.set i (nodePath g i, w)) i = w := by
  unfold outF
  rw [getD_set_cases, if_pos ⟨rfl, hi⟩]

theorem outF_setOut_ne (g : RGraph) (i : Nat) (w : Option Nat) (x : Nat)
    (hx : x ≠ i) : outF (g.set i (nodePath g i, w)) x = outF g x := by
  unfold outF
  rw [getD_set_cases, if_neg (fun h => hx h.1)]

theorem map_fst_setOut (g : RGraph) (i : Nat) (w : Option Nat) :
    (g.set i (nodePath g i, w)).map Prod.fst = g.map Prod.fst := by
  apply List.ext_getElem
  · simp
  · intro n h1 h2
    rw [List.getElem_map, List.getElem_map]
    have hn : n < g.length := by simpa using h2
    by_cases hni : n = i
    · subst hni
      rw [List.getElem_set_self]
      rw [nodePath_lt g n hn]
      rfl
    · rw [List.getElem_set_ne (Ne.symm hni)]

theorem addNode_facts (g : RGraph) (p : RPath)
    (hnodup : (g.map Prod.fst).Nodup) :
    ((addNode g p).1.map Prod.fst).Nodup ∧
    (addNode g p).2 < (addNode g p).1.length ∧
    nodePath (addNode g p).1 (addNode g p).2 = p ∧
    g.length ≤ (addNode g p).1.length ∧
    (∀ x, x < g.length → nodePath (addNode g p).1 x = nodePath g x) ∧
    (∀ x v, outF (addNode g p).1 x = some v → outF g x = some v) ∧
    (∀ x, x < g.length → outF (addNode g p).1 x = outF g x) ∧
    (∀ q, q ∈ (addNode g p).1.map Prod.fst ↔ q ∈ g.map Prod.fst ∨ q = p) := by
  rcases addNode_cases g p with ⟨i, heq, hlt, hpath⟩ | ⟨heq, hnot⟩
  · rw [heq]
    refine ⟨hnodup, hlt, hpath, le_refl _, fun x _ => rfl, fun x v h => h,
      fun x _ => rfl, fun q => ?_⟩
    constructor
    · exact Or.inl
    · rintro (h | rfl)
      · exact h
      · rw [← hpath]
        exact nodePath_mem_map_fst g i hlt
  · rw [heq]
    have hmapfst : (g ++ [(p, none)]).map Prod.fst = g.map Prod.fst ++ [p] := by
      simp
    refine ⟨?_, by simp, nodePath_append_last g _, by simp, ?_, ?_, ?_, ?_⟩
    · rw [hmapfst, List.nodup_append]
      refine ⟨hnodup, by simp, ?_⟩
      intro a ha hb
      have hap : a = p := by simpa using hb
      subst hap
      exact hnot ha
    · intro x hx
      exact nodePath_append_lt g _ x hx
    · intro x v h
      by_cases hx : x < g.length
      · rw [outF_append_lt g _ x hx] at h
        exact h
      · exfalso
        by_cases hxe : x = g.length
        · subst hxe
          rw [outF_append_last] at h
          cases h
        · rw [outF_none_of_ge _ x (by simp; omega)] at h
          cases h
    · intro x hx
      exact outF_append_lt g _ x hx
    · intro q
      rw [hmapfst]
      simp

theorem addMapping_facts (g : RGraph) (pr : RPath × RPath)
    (hnodup : (g.map Prod.fst).Nodup) :
    ((addMapping g pr).map Prod.fst).Nodup ∧
    (∀ q, q ∈ (addMapping g pr).map Prod.fst ↔
      q ∈ g.map Prod.fst ∨ q = pr.1 ∨ q = pr.2) ∧
    (∀ u v, outF (addMapping g pr) u = some v →
      ((nodePath (addMapping g pr) u = pr.1 ∧
        nodePath (addMapping g pr) v = pr.2 ∧
        u < (addMapping g pr).length ∧ v < (addMapping g pr).length) ∨
        outF g u = some v)) ∧
    (∀ x, x < g.length → nodePath (addMapping g pr) x = nodePath g x) ∧
    g.length ≤ (addMapping g pr).length ∧
    (∃ us vs, outF (addMapping g pr) us = some vs ∧
      nodePath (addMapping g pr) us = pr.1 ∧
      nodePath (addMapping g pr) vs = pr.2) ∧
    (∀ u v, outF g u = some v → nodePath g u ≠ pr.1 →
      outF (addMapping g pr) u = some v) := by
  obtain ⟨sn, s2lt, spath, sle, spres, sout, soutlt, smem⟩ :=
    addNode_facts g pr.1 hnodup
  obtain ⟨tn, t2lt, tpath, tle, tpres, tout, toutlt, tmem⟩ :=
    addNode_facts (addNode g pr.1).1 pr.2 sn
  set s := addNode g pr.1 with hs
  set t := addNode s.1 pr.2 with ht
  have hz : addMapping g pr = t.1.set s.2 (nodePath t.1 s.2, some t.2) := rfl
  have hs2t : s.2 < t.1.length := lt_of_lt_of_le s2lt tle
  have hpathS2 : nodePath t.1 s.2 = pr.1 := by
    rw [tpres s.2 s2lt]
    exact spath
  have hzlen : (addMapping g pr).length = t.1.length := by
    rw [hz]
    simp
  have hzpath : ∀ x, nodePath (addMapping g pr) x = nodePath t.1 x := by
    intro x
    rw [hz]
    exact nodePath_setOut t.1 s.2 (some t.2) x
  have hglen : g.length ≤ t.1.length := le_trans sle tle
  refine ⟨?_, ?_, ?_, ?_, ?_, ?_, ?_⟩
  · rw [hz, map_fst_setOut]
    exact tn
  · intro q
    rw [hz, map_fst_setOut, tmem, smem]
    tauto
  · intro u v hout
    by_cases hu : u = s.2
    · subst hu
      rw [hz, outF_setOut_self t.1 s.2 (some t.2) hs2t] at hout
      injection hout with hout
      subst hout
      left
      simp only [hzpath, hzlen]
      exact ⟨hpathS2, tpath, hs2t, t2lt⟩
    · rw [hz, outF_setOut_ne t.1 s.2 (some t.2) u hu] at hout
      exact Or.inr (sout u v (tout u v hout))
  · intro x hx
    rw [hzpath, tpres x (lt_of_lt_of_le hx sle), spres x hx]
  · rw [hzlen]
    exact hglen
  · refine ⟨s.2, t.2, ?_, ?_, ?_⟩
    · rw [hz, outF_setOut_self t.1 s.2 (some t.2) hs2t]
    · rw [hzpath]
      exact hpathS2
    · rw [hzpath]
      exact tpath
  · intro u v hout hne
    have hult : u < g.length := lt_of_outF_isSome g u (by rw [hout]; simp)
    have hus : u ≠ s.2 := by
      intro h
      apply hne
      rw [h]
      have hsl : s.2 < g.length := h ▸ hult
      exact (spres s.2 hsl).symm.trans spath
    rw [hz, outF_setOut_ne t.1 s.2 (some t.2) u hus,
      toutlt u (lt_of_lt_of_le hult sle), soutlt u hult]
    exact hout

/-- Invariant of the initial-graph fold: the graph built so far
represents exactly the processed prefix of the mapping. -/
structure InitInv (pre : List (RPath × RPath)) (g : RGraph) : Prop where
  nodup : (g.map Prod.fst).Nodup
  mem : ∀ q, q ∈ g.map Prod.fst ↔ ∃ pr ∈ pre, q = pr.1 ∨ q = pr.2
  sound : ∀ u v, outF g u = some v →
    u < g.length ∧ v < g.length ∧ (nodePath g u, nodePath g v) ∈ pre
  complete : (pre.map Prod.fst).Nodup →
    ∀ pr ∈ pre, ∃ u v, outF g u = some v ∧
      nodePath g u = pr.1 ∧ nodePath g v = pr.2

theorem initInv_step (pre : List (RPath × RPath)) (g : RGraph)
    (pr : RPath × RPath) (hinv : InitInv pre g) :
    InitInv (pre ++ [pr]) (addMapping g pr) := by
  obtain ⟨hnodup, hmemq, hsound, hcompl⟩ := hinv
  obtain ⟨zn, zmem, zsound, zpres, zle, znewedge, zkeep⟩ :=
    addMapping_facts g pr hnodup
  refine ⟨zn, ?_, ?_, ?_⟩
  · intro q
    rw [zmem q]
    constructor
    · rintro (hq | hq | hq)
      · obtain ⟨pr', hpr', h⟩ := (hmemq q).mp hq
        exact ⟨pr', List.mem_append_left _ hpr', h⟩
      · exact ⟨pr, List.mem_append_right _ (by simp), Or.inl hq⟩
      · exact ⟨pr, List.mem_append_right _ (by simp), Or.inr hq⟩
    · rintro ⟨pr', hpr', h⟩
      rcases List.mem_append.mp hpr' with hmem | hmem
      · exact Or.inl ((hmemq q).mpr ⟨pr', hmem, h⟩)
      · have : pr' = pr := by simpa using hmem
        subst this
        rcases h with h | h
        · exact Or.inr (Or.inl h)
        · exact Or.inr (Or.inr h)
  · intro u v hout
    rcases zsound u v hout with ⟨h1, h2, h3, h4⟩ | hold
    · exact ⟨h3, h4, by rw [h1, h2]; exact List.mem_append_right _ (by simp)⟩
    · obtain ⟨hu, hv, hpair⟩ := hsound u v hold
      refine ⟨lt_of_lt_of_le hu zle, lt_of_lt_of_le hv zle, ?_⟩
      rw [zpres u hu, zpres v hv]
      exact List.mem_append_left _ hpair
  · intro hnodups pr' hpr'
    rcases List.mem_append.mp hpr' with hmem | hmem
    · have hnodups' : (pre.map Prod.fst).Nodup := by
        rw [List.map_append] at hnodups
        exact (List.nodup_append.mp hnodups).1
      obtain ⟨u, v, hout, hup, hvp⟩ := hcompl hnodups' pr' hmem
      obtain ⟨hu, hv, _⟩ := hsound u v hout
      have hne : nodePath g u ≠ pr.1 := by
        rw [hup]
        intro h
        rw [List.map_append] at hnodups
        have hdisj := (List.nodup_append.mp hnodups).2.2
        exact hdisj (h ▸ List.mem_map_of_mem Prod.fst hmem) (by simp)
      refine ⟨u, v, zkeep u v hout hne, ?_, ?_⟩
      · rw [zpres u hu]
        exact hup
      · rw [zpres v hv]
        exact hvp
    · have : pr' = pr := by simpa using hmem
      subst this
      obtain ⟨us, vs, h1, h2, h3⟩ := znewedge
      exact ⟨us, vs, h1, h2, h3⟩

theorem initGraph_inv (renames : List (RPath × RPath)) :
    InitInv renames (initGraph renames) := by
  have hgen : ∀ (l pre : List (RPath × RPath)) (g : RGraph), InitInv pre g →
      InitInv (pre ++ l) (l.foldl addMapping g) := by
    intro l
    induction l with
    | nil =>
      intro pre g h
      simpa using h
    | cons pr rest ih =>
      intro pre g h
      have := ih (pre ++ [pr]) (addMapping g pr) (initInv_step pre g pr h)
      simpa using this
  have hbase : InitInv [] ([] : RGraph) := by
    refine ⟨by simp, by simp, ?_, by simp⟩
    intro u v hout
    rw [outF_none_of_ge ([] : RGraph) u (by simp)] at hout
    cases hout
  have := hgen renames [] [] hbase
  simpa [initGraph] using this

theorem getD_append_lt' {α : Type} (l l' : List α) (d : α) (k : Nat)
    (hk : k < l.length) : (l ++ l').getD k d = l.getD k d := by
  rw [List.getD_eq_getElem?_getD, List.getD_eq_getElem?_getD,
    List.getElem?_append_left (by simpa using hk)]

theorem getD_append_right' {α : Type} (l l' : List α) (d : α) (k : Nat)
    (hk : l.length ≤ k) : (l ++ l').getD k d = l'.getD (k - l.length) d := by
  rw [List.getD_eq_getElem?_getD, List.getD_eq_getElem?_getD,
    List.getElem?_append_right (by simpa using hk)]

theorem nodePath_eq_map_fst_getD (g : RGraph) (x : Nat) :
    nodePath g x = (g.map Prod.fst).getD x "" := by
  unfold nodePath
  rw [List.getD_eq_getElem?_getD, List.getD_eq_getElem?_getD]
  by_cases h : x < g.length
  · rw [List.getElem?_eq_getElem h, List.getElem?_eq_getElem (by simpa using h)]
    simp
  · rw [List.getElem?_eq_none (le_of_not_lt h),
      List.getElem?_eq_none (by simpa using le_of_not_lt h)]
    rfl

theorem not_cyclic_of_dead_target (g : RGraph) (u w : Nat)
    (hout : outF g u = some w) (hw : outF g w = none) (hne : w ≠ u) :
    isCyclic g u = false := by
  by_contra hc
  rw [Bool.not_eq_false] at hc
  obtain ⟨k, hk1, _, hiter⟩ := (isCyclic_iff g u).mp hc
  have h1 : iterOut g 1 u = some w := by
    rw [iterOut_succ, hout]
    rfl
  have h2 : iterOut g 2 u = none := by
    rw [show (2 : Nat) = 1 + 1 from rfl, iterOut_add, h1]
    show iterOut g 1 w = none
    rw [iterOut_succ, hw]
  rcases Nat.lt_or_ge k 2 with hk2 | hk2
  · have hk1' : k = 1 := by omega
    subst hk1'
    rw [h1] at hiter
    injection hiter with hiter
    exact hne hiter
  · have : iterOut g k u = none := by
      rw [show k = 2 + (k - 2) from by omega]
      exact iterOut_none_add g 2 (k - 2) u h2
    rw [hiter] at this
    cases this

/-- Invariant maintained by the cycle-breaking loop: the graph is the
initial graph extended with the generated placeholder nodes, each
redirected source points at its placeholder, the deferred steps pair
the placeholders with the original destinations, and the placeholder
counters strictly increase and were all probed against the
filesystem. -/
structure LoopInv (renames : List (RPath × RPath)) (fs : Fs) (g : RGraph)
    (deferred : List (RPath × RPath)) (gens : List (RPath × Nat))
    (counter : Nat) : Prop where
  len : g.length = (initGraph renames).length + gens.length
  paths : g.map Prod.fst =
    (initGraph renames).map Prod.fst ++ gens.map Prod.fst
  tempOut : ∀ u, (initGraph renames).length ≤ u → outF g u = none
  targLt : ∀ u v, outF g u = some v → v < g.length ∧ u < g.length
  edges : ∀ u, u < (initGraph renames).length →
    outF g u = outF (initGraph renames) u ∨
    (outF (initGraph renames) u ≠ none ∧
      ∃ k, k < gens.length ∧ outF g u = some ((initGraph renames).length + k))
  redirects : ∀ k, k < gens.length →
    ∃ u v, u < (initGraph renames).length ∧
      outF g u = some ((initGraph renames).length + k) ∧
      outF (initGraph renames) u = some v ∧
      deferred.getD k ("", "") =
        ((gens.getD k ("", 0)).1, nodePath (initGraph renames) v)
  redirectUnique : ∀ k u u',
    outF g u = some ((initGraph renames).length + k) →
    outF g u' = some ((initGraph renames).length + k) → u = u'
  dlen : deferred.length = gens.length
  counters : ∀ k k', k < k' → k' < gens.length →
    (gens.getD k ("", 0)).2 < (gens.getD k' ("", 0)).2
  counterBound : ∀ k, k < gens.length → (gens.getD k ("", 0)).2 < counter
  genForm : ∀ e ∈ gens, pathExists fs e.1 = false ∧
    ∃ src fname, file_name src = some fname ∧ e.1 = temp_name src fname e.2

theorem LoopInv_nodePath_init (renames : List (RPath × RPath)) (fs : Fs)
    (g : RGraph) (deferred : List (RPath × RPath)) (gens : List (RPath × Nat))
    (counter : Nat) (hinv : LoopInv renames fs g deferred gens counter)
    (x : Nat) (hx : x < (initGraph renames).length) :
    nodePath g x = nodePath (initGraph renames) x := by
  rw [nodePath_eq_map_fst_getD, hinv.paths, getD_append_lt' _ _ _ x (by simpa using hx),
    ← nodePath_eq_map_fst_getD]

theorem LoopInv_nodePath_temp (renames : List (RPath × RPath)) (fs : Fs)
    (g : RGraph) (deferred : List (RPath × RPath)) (gens : List (RPath × Nat))
    (counter : Nat) (hinv : LoopInv renames fs g deferred gens counter)
    (k : Nat) (hk : k < gens.length) :
    nodePath g ((initGraph renames).length + k) = (gens.getD k ("", 0)).1 := by
  rw [nodePath_eq_map_fst_getD, hinv.paths,
    getD_append_right' _ _ _ _ (by simp)]
  simp only [List.length_map, Nat.add_sub_cancel_left]
  rw [List.getD_eq_getElem?_getD, List.getD_eq_getElem?_getD]
  rw [List.getElem?_map, List.getElem?_eq_getElem hk]
  rfl

theorem LoopInv_base (renames : List (RPath × RPath)) (fs : Fs) :
    LoopInv renames fs (initGraph renames) [] [] 0 := by
  refine ⟨by simp, by simp, ?_, ?_, ?_, by simp, ?_, rfl, by simp, by simp, by simp⟩
  · intro u hu
    exact outF_none_of_ge _ u hu
  · intro u v hout
    obtain ⟨hu, hv, _⟩ := (initGraph_inv renames).sound u v hout
    exact ⟨hv, hu⟩
  · intro u _
    exact Or.inl rfl
  · intro k u u' h1 h2
    obtain ⟨_, hv, _⟩ := (initGraph_inv renames).sound u _ h1
    omega

theorem map_fst_brokenGraph (g : RGraph) (u : Nat) (temp : RPath) :
    (brokenGraph g u temp).map Prod.fst = g.map Prod.fst ++ [temp] := by
  unfold brokenGraph
  rw [List.map_append, map_fst_setOut]
  rfl

theorem LoopInv_step (renames : List (RPath × RPath)) (fs : Fs) (g : RGraph)
    (deferred : List (RPath × RPath)) (gens : List (RPath × Nat))
    (counter u : Nat)
    (r : RGraph × (RPath × RPath) × (RPath × Nat) × Nat)
    (hinv : LoopInv renames fs g deferred gens counter)
    (hfind : findCycleNode g = some u)
    (hbreak : breakAt fs g u counter = some r) :
    LoopInv renames fs r.1 (deferred ++ [r.2.1]) (gens ++ [r.2.2.1]) r.2.2.2 := by
  obtain ⟨hcyc, hulen⟩ := findCycleNode_some g u hfind
  obtain ⟨v, fname, temp, chosen, houtu, hfn, hprobe, hr⟩ :=
    breakAt_spec fs g u counter r hbreak
  obtain ⟨hc1, hc2, htform, htfree, _⟩ :=
    probe_temp_spec fs (nodePath g u) fname (fs.length + 1) counter temp chosen hprobe
  subst hr
  show LoopInv renames fs (brokenGraph g u temp)
    (deferred ++ [(temp, nodePath g v)]) (gens ++ [(temp, chosen)]) (chosen + 1)
  have hum : u < (initGraph renames).length := by
    by_contra hcon
    have := hinv.tempOut u (by omega)
    rw [this] at houtu
    cases houtu
  have hout₀ : outF (initGraph renames) u = some v := by
    rcases hinv.edges u hum with h | ⟨_, k, hk, hk2⟩
    · rw [← h]
      exact houtu
    · exfalso
      rw [houtu] at hk2
      injection hk2 with hk2
      have hvout : outF g v = none := hinv.tempOut v (by omega)
      have hvne : v ≠ u := by omega
      have := not_cyclic_of_dead_target g u v houtu hvout hvne
      rw [this] at hcyc
      cases hcyc
  have hvm : v < (initGraph renames).length := by
    have := (initGraph_inv renames).sound u v hout₀
    exact this.2.1
  refine ⟨?_, ?_, ?_, ?_, ?_, ?_, ?_, ?_, ?_, ?_, ?_⟩
  · -- len
    simp only [brokenGraph_length, hinv.len, List.length_append,
      List.length_cons, List.length_nil]
    omega
  · -- paths
    rw [map_fst_brokenGraph, hinv.paths, List.map_append, List.append_assoc]
    rfl
  · -- tempOut
    intro x hx
    have hxu : x ≠ u := by omega
    rw [outF_brokenGraph_ne g u temp x hxu]
    exact hinv.tempOut x hx
  · -- targLt
    intro x w hxw
    rw [brokenGraph_length]
    by_cases hxu : x = u
    · subst hxu
      rw [outF_brokenGraph_self g x temp hulen] at hxw
      injection hxw with hxw
      omega
    · rw [outF_brokenGraph_ne g u temp x hxu] at hxw
      have := hinv.targLt x w hxw
      omega
  · -- edges
    intro x hx
    by_cases hxu : x = u
    · subst hxu
      right
      refine ⟨by simp [hout₀], gens.length, ?_, ?_⟩
      · simp only [List.length_append, List.length_cons, List.length_nil]
        omega
      · rw [outF_brokenGraph_self g x temp hulen, hinv.len]
    · rw [outF_brokenGraph_ne g u temp x hxu]
      rcases hinv.edges x hx with h | ⟨h1, k, hk, hk2⟩
      · exact Or.inl h
      · refine Or.inr ⟨h1, k, ?_, hk2⟩
        simp only [List.length_append, List.length_cons, List.length_nil]
        omega
  · -- redirects
    intro k hk
    have hk' : k < gens.length + 1 := by simpa using hk
    rcases Nat.lt_or_ge k gens.length with hklt | hkge
    · obtain ⟨x, v', hx, hgx, h0x, hdk⟩ := hinv.redirects k hklt
      have hxu : x ≠ u := by
        intro hEq
        rw [hEq, houtu] at hgx
        injection hgx with hgx
        omega
      refine ⟨x, v', hx, ?_, h0x, ?_⟩
      · rw [outF_brokenGraph_ne g u temp x hxu]
        exact hgx
      · rw [getD_append_lt' deferred _ _ k (by rw [hinv.dlen]; exact hklt),
          getD_append_lt' gens _ _ k hklt]
        exact hdk
    · have hkEq : k = gens.length := by omega
      subst hkEq
      refine ⟨u, v, hum, ?_, hout₀, ?_⟩
      · rw [outF_brokenGraph_self g u temp hulen, hinv.len]
      · rw [getD_append_right' deferred _ _ _ (le_of_eq hinv.dlen),
          getD_append_right' gens _ _ _ (le_refl _)]
        simp only [hinv.dlen, Nat.sub_self, List.getD_cons_zero]
        rw [LoopInv_nodePath_init renames fs g deferred gens counter hinv v hvm]
  · -- redirectUnique
    intro k x x' h1 h2
    by_cases hxu : x = u
    · by_cases hx'u : x' = u
      · rw [hxu, hx'u]
      · exfalso
        subst hxu
        rw [outF_brokenGraph_self g x temp hulen] at h1
        injection h1 with h1
        rw [outF_brokenGraph_ne g x temp x' hx'u] at h2
        obtain ⟨ht1, _⟩ := hinv.targLt x' _ h2
        omega
    · by_cases hx'u : x' = u
      · exfalso
        subst hx'u
        rw [outF_brokenGraph_self g x' temp hulen] at h2
        injection h2 with h2
        rw [outF_brokenGraph_ne g x' temp x hxu] at h1
        obtain ⟨ht1, _⟩ := hinv.targLt x _ h1
        omega
      · rw [outF_brokenGraph_ne g u temp x hxu] at h1
        rw [outF_brokenGraph_ne g u temp x' hx'u] at h2
        exact hinv.redirectUnique k x x' h1 h2
  · -- dlen
    simp [hinv.dlen]
  · -- counters
    intro k k' hkk hk'
    have hk'' : k' < gens.length + 1 := by simpa using hk'
    rcases Nat.lt_or_ge k' gens.length with hlt | hge
    · rw [getD_append_lt' gens _ _ k (by omega),
        getD_append_lt' gens _ _ k' hlt]
      exact hinv.counters k k' hkk hlt
    · have hkEq : k' = gens.length := by omega
      subst hkEq
      rw [getD_append_lt' gens _ _ k (by omega),
        getD_append_right' gens _ _ _ (le_refl _)]
      simp only [Nat.sub_self, List.getD_cons_zero]
      have := hinv.counterBound k (by omega)
      omega
  · -- counterBound
    intro k hk
    have hk' : k < gens.length + 1 := by simpa using hk
    rcases Nat.lt_or_ge k gens.length with hlt | hge
    · rw [getD_append_lt' gens _ _ k hlt]
      have := hinv.counterBound k hlt
      omega
    · have hkEq : k = gens.length := by omega
      subst hkEq
      rw [getD_append_right' gens _ _ _ (le_refl _)]
      simp only [Nat.sub_self, List.getD_cons_zero]
      omega
  · -- genForm
    intro e he
    rw [List.mem_append] at he
    rcases he with he | he
    · exact hinv.genForm e he
    · rw [List.mem_singleton] at he
      subst he
      exact ⟨htfree, nodePath g u, fname, hfn, htform⟩

theorem breakLoop_eq (fs : Fs) (g : RGraph) (counter : Nat)
    (deferred : List (RPath × RPath)) (gens : List (RPath × Nat)) :
    breakLoop fs g counter deferred gens =
      match findCycleNode g with
      | none => some (g, deferred, gens, counter)
      | some u =>
        match breakAt fs g u counter with
        | none => none
        | some r =>
          breakLoop fs r.1 r.2.2.2 (deferred ++ [r.2.1]) (gens ++ [r.2.2.1]) := by
  rw [breakLoop]
  split
  · rename_i heq
    rw [heq]
  · rename_i u heq
    rw [heq]
    dsimp only
    split
    · rename_i hb
      rw [hb]
    · rename_i r hb
      rw [hb]

theorem breakLoop_inv (renames : List (RPath × RPath)) (fs : Fs)
    (hfn : ∀ pr ∈ renames, (file_name pr.1).isSome = true) (n : Nat) :
    ∀ g deferred gens counter, cycleCard g ≤ n →
    LoopInv renames fs g deferred gens counter →
    ∃ res, breakLoop fs g counter deferred gens = some res ∧
      LoopInv renames fs res.1 res.2.1 res.2.2.1 res.2.2.2 ∧
      findCycleNode res.1 = none := by
  induction n with
  | zero =>
    intro g deferred gens counter hle hinv
    cases hfind : findCycleNode g with
    | none =>
      refine ⟨(g, deferred, gens, counter), ?_, hinv, hfind⟩
      rw [breakLoop_eq, hfind]
    | some u =>
      exfalso
      obtain ⟨hcyc, hulen⟩ := findCycleNode_some g u hfind
      have hmem : u ∈ cycleNodes g := by
        unfold cycleNodes
        rw [List.mem_filter, List.mem_range]
        exact ⟨hulen, hcyc⟩
      have hpos : 0 < cycleCard g := by
        unfold cycleCard
        exact List.length_pos.mpr (List.ne_nil_of_mem hmem)
      omega
  | succ n ih =>
    intro g deferred gens counter hle hinv
    cases hfind : findCycleNode g with
    | none =>
      refine ⟨(g, deferred, gens, counter), ?_, hinv, hfind⟩
      rw [breakLoop_eq, hfind]
    | some u =>
      obtain ⟨hcyc, hulen⟩ := findCycleNode_some g u hfind
      obtain ⟨v, hv⟩ : ∃ v, outF g u = some v := by
        obtain ⟨k, hk1, _, hiter⟩ := (isCyclic_iff g u).mp hcyc
        cases k with
        | zero => omega
        | succ j =>
          rw [iterOut_succ] at hiter
          cases ho : outF g u with
          | none =>
            rw [ho] at hiter
            cases hiter
          | some w => exact ⟨w, rfl⟩
      have hum : u < (initGraph renames).length := by
        by_contra hcon
        have := hinv.tempOut u (by omega)
        rw [this] at hv
        cases hv
      have hsrc : ∃ pr ∈ renames, nodePath g u = pr.1 := by
        have h0 : ∃ v₀, outF (initGraph renames) u = some v₀ := by
          rcases hinv.edges u hum with h | ⟨h1, _⟩
          · exact ⟨v, by rw [← h]; exact hv⟩
          · cases ho : outF (initGraph renames) u with
            | none => exact absurd ho h1
            | some w => exact ⟨w, rfl⟩
        obtain ⟨v₀, hv₀⟩ := h0
        have := ((initGraph_inv renames).sound u v₀ hv₀).2.2
        refine ⟨(nodePath (initGraph renames) u, nodePath (initGraph renames) v₀),
          this, ?_⟩
        exact LoopInv_nodePath_init renames fs g deferred gens counter hinv u hum
      obtain ⟨pr, hpr, hprEq⟩ := hsrc
      obtain ⟨fname, hfname⟩ : ∃ fname, file_name (nodePath g u) = some fname := by
        have := hfn pr hpr
        rw [← hprEq] at this
        exact Option.isSome_iff_exists.mp this
      obtain ⟨tc, hp⟩ :
          ∃ tc, probe_temp fs (nodePath g u) fname (fs.length + 1) counter = some tc := by
        have := probe_temp_isSome fs (nodePath g u) fname counter
        exact Option.isSome_iff_exists.mp this
      obtain ⟨temp, chosen⟩ := tc
      have hband : breakAt fs g u counter =
          some (brokenGraph g u temp, (temp, nodePath g v), (temp, chosen), chosen + 1) := by
        unfold breakAt
        rw [hv]
        dsimp only
        rw [hfname]
        dsimp only
        rw [hp]
      have hinv' := LoopInv_step renames fs g deferred gens counter u
        (brokenGraph g u temp, (temp, nodePath g v), (temp, chosen), chosen + 1)
        hinv hfind hband
      have hcard : cycleCard (brokenGraph g u temp) < cycleCard g :=
        brokenGraph_cycleCard g u temp hcyc
      obtain ⟨res, hres, hresInv, hresNone⟩ :=
        ih (brokenGraph g u temp) (deferred ++ [(temp, nodePath g v)])
          (gens ++ [(temp, chosen)]) (chosen + 1) (by omega) hinv'
      refine ⟨res, ?_, hresInv, hresNone⟩
      rw [breakLoop_eq, hfind]
      dsimp only
      rw [hband]
      exact hres

/-! ### Bridging the loop invariant to the abstract executor -/

theorem fsGet_eq_none_of_not_exists (fs : Fs) (p : RPath)
    (h : pathExists fs p = false) : fsGet fs p = none := by
  by_contra hc
  have := (pathExists_iff fs p).mpr hc
  rw [h] at this
  cases this

theorem nodePath_inj (g : RGraph) (hn : (g.map Prod.fst).Nodup)
    (u v : Nat) (hu : u < g.length) (hv : v < g.length)
    (h : nodePath g u = nodePath g v) : u = v := by
  have hinj := List.nodup_iff_injective_get.mp hn
  have hu' : u < (g.map Prod.fst).length := by simpa using hu
  have hv' : v < (g.map Prod.fst).length := by simpa using hv
  have hg : (g.map Prod.fst).get ⟨u, hu'⟩ = (g.map Prod.fst).get ⟨v, hv'⟩ := by
    rw [List.get_map, List.get_map]
    rw [nodePath_lt g u hu, nodePath_lt g v hv] at h
    exact h
  have := hinj hg
  exact congrArg Fin.val this

theorem find?_eq_of_mem_of_unique {α : Type} (l : List α) (f : α → Bool) (a : α)
    (ha : a ∈ l) (hfa : f a = true)
    (huniq : ∀ b ∈ l, f b = true → b = a) : l.find? f = some a := by
  induction l with
  | nil => cases ha
  | cons x xs ih =>
    rw [find?_cons_eq]
    cases hx : f x with
    | true =>
      have := huniq x (by simp) hx
      rw [this]
      simp
    | false =>
      rcases List.mem_cons.mp ha with rfl | hmem
      · rw [hfa] at hx
        cases hx
      · exact ih hmem (fun b hb hfb => huniq b (List.mem_cons_of_mem x hb) hfb)

theorem LoopInv_gens_fst_nodup (renames : List (RPath × RPath)) (fs : Fs)
    (g : RGraph) (deferred : List (RPath × RPath)) (gens : List (RPath × Nat))
    (counter : Nat) (hinv : LoopInv renames fs g deferred gens counter) :
    (gens.map Prod.fst).Nodup := by
  unfold List.Nodup
  rw [List.pairwise_map, List.pairwise_iff_get]
  intro i j hij hEq
  rw [List.get_eq_getElem, List.get_eq_getElem] at hEq
  obtain ⟨_, si, fi, hfi, hformi⟩ := hinv.genForm _ (List.getElem_mem i.2)
  obtain ⟨_, sj, fj, hfj, hformj⟩ := hinv.genForm _ (List.getElem_mem j.2)
  rw [hformi, hformj] at hEq
  have hc := temp_name_counter_inj _ _ _ _ _ _ hEq
  have hcc := hinv.counters i.1 j.1 hij (by exact j.2)
  rw [List.getD_eq_getElem _ _ i.2, List.getD_eq_getElem _ _ j.2] at hcc
  omega

theorem LoopInv_G_fst_nodup (renames : List (RPath × RPath)) (fs : Fs)
    (g : RGraph) (deferred : List (RPath × RPath)) (gens : List (RPath × Nat))
    (counter : Nat) (hinv : LoopInv renames fs g deferred gens counter)
    (hexS : ∀ pr ∈ renames, pathExists fs pr.1 = true)
    (hdisj : ∀ e ∈ gens, e.1 ∉ renames.map Prod.snd) :
    (g.map Prod.fst).Nodup := by
  rw [hinv.paths, List.nodup_append]
  refine ⟨(initGraph_inv renames).nodup,
    LoopInv_gens_fst_nodup renames fs g deferred gens counter hinv, ?_⟩
  intro q hq hq'
  obtain ⟨pr, hpr, hor⟩ := ((initGraph_inv renames).mem q).mp hq
  obtain ⟨e, he, heq⟩ := List.mem_map.mp hq'
  obtain ⟨hfree, _⟩ := hinv.genForm e he
  rcases hor with h | h
  · have := hexS pr hpr
    rw [← h, ← heq, hfree] at this
    cases this
  · apply hdisj e he
    rw [heq, h]
    exact List.mem_map_of_mem Prod.snd hpr

theorem initGraph_indeg (renames : List (RPath × RPath))
    (hdstN : (renames.map Prod.snd).Nodup)
    (u u' w : Nat) (h : outF (initGraph renames) u = some w)
    (h' : outF (initGraph renames) u' = some w) : u = u' := by
  obtain ⟨hu, hw, hpr⟩ := (initGraph_inv renames).sound u w h
  obtain ⟨hu', _, hpr'⟩ := (initGraph_inv renames).sound u' w h'
  have hpq := List.inj_on_of_nodup_map hdstN hpr hpr' rfl
  have hpath : nodePath (initGraph renames) u = nodePath (initGraph renames) u' := by
    have := congrArg Prod.fst hpq
    exact this
  exact nodePath_inj (initGraph renames) (initGraph_inv renames).nodup u u' hu hu' hpath

theorem LoopInv_u_lt (renames : List (RPath × RPath)) (fs : Fs)
    (g : RGraph) (deferred : List (RPath × RPath)) (gens : List (RPath × Nat))
    (counter : Nat) (hinv : LoopInv renames fs g deferred gens counter)
    (u w : Nat) (h : outF g u = some w) : u < (initGraph renames).length := by
  by_contra hcon
  have := hinv.tempOut u (by omega)
  rw [this] at h
  cases h

theorem LoopInv_orig_edge (renames : List (RPath × RPath)) (fs : Fs)
    (g : RGraph) (deferred : List (RPath × RPath)) (gens : List (RPath × Nat))
    (counter : Nat) (hinv : LoopInv renames fs g deferred gens counter)
    (u w : Nat) (h : outF g u = some w) (hw : w < (initGraph renames).length) :
    outF (initGraph renames) u = some w := by
  have hum := LoopInv_u_lt renames fs g deferred gens counter hinv u w h
  rcases hinv.edges u hum with he | ⟨_, k, hk, hk2⟩
  · rw [← he]
    exact h
  · rw [h] at hk2
    injection hk2 with hk2
    omega

theorem LoopInv_indeg (renames : List (RPath × RPath)) (fs : Fs)
    (g : RGraph) (deferred : List (RPath × RPath)) (gens : List (RPath × Nat))
    (counter : Nat) (hinv : LoopInv renames fs g deferred gens counter)
    (hdstN : (renames.map Prod.snd).Nodup)
    (u u' w : Nat) (h : outF g u = some w) (h' : outF g u' = some w) : u = u' := by
  rcases Nat.lt_or_ge w (initGraph renames).length with hw | hw
  · exact initGraph_indeg renames hdstN u u' w
      (LoopInv_orig_edge renames fs g deferred gens counter hinv u w h hw)
      (LoopInv_orig_edge renames fs g deferred gens counter hinv u' w h' hw)
  · have hwk : w = (initGraph renames).length + (w - (initGraph renames).length) := by
      omega
    rw [hwk] at h h'
    exact hinv.redirectUnique _ u u' h h'

theorem no_self_loop (g : RGraph) (u : Nat)
    (hnc : ∀ w, isCyclic g w = false) (h : outF g u = some u) : False := by
  have hu : u < g.length := by
    by_contra hcon
    rw [outF_none_of_ge g u (by omega)] at h
    cases h
  have hcy : isCyclic g u = true := by
    unfold isCyclic
    rw [List.any_eq_true]
    refine ⟨0, List.mem_range.mpr (by omega), ?_⟩
    have h1 : iterOut g 1 u = some u := by
      rw [iterOut_succ, h]
      rfl
    rw [h1]
    simp
  rw [hnc u] at hcy
  cases hcy

/-- The per-node edge emission in topological order (`planOf` before the
final reversal). -/
def emitOf (g : RGraph) : List (RPath × RPath) :=
  (toposortG g).filterMap
    (fun u => (outF g u).map (fun v => (nodePath g u, nodePath g v)))

theorem planOf_eq_emitOf (g : RGraph) : planOf g = (emitOf g).reverse := rfl

theorem emitOf_mem (g : RGraph) (e : RPath × RPath) :
    e ∈ emitOf g ↔ ∃ u v, outF g u = some v ∧
      e = (nodePath g u, nodePath g v) := by
  unfold emitOf
  rw [List.mem_filterMap]
  constructor
  · rintro ⟨u, _, hf⟩
    cases ho : outF g u with
    | none =>
      rw [ho] at hf
      cases hf
    | some v =>
      rw [ho] at hf
      simp only [Option.map_some', Option.some.injEq] at hf
      exact ⟨u, v, ho, hf.symm⟩
  · rintro ⟨u, v, ho, he⟩
    refine ⟨u, ?_, ?_⟩
    · rw [toposortG_mem]
      exact lt_of_outF_isSome g u (by rw [ho]; exact fun h => Option.noConfusion h)
    · rw [ho, he]
      rfl

theorem map_fst_emitOf (g : RGraph) : (emitOf g).map Prod.fst =
    (toposortG g).filterMap (fun u => (outF g u).map (fun _ => nodePath g u)) := by
  unfold emitOf
  rw [List.map_filterMap]
  apply List.filterMap_congr
  intro u _
  rw [Option.map_map]
  rfl

theorem map_snd_emitOf (g : RGraph) : (emitOf g).map Prod.snd =
    (toposortG g).filterMap (fun u => (outF g u).map (fun v => nodePath g v)) := by
  unfold emitOf
  rw [List.map_filterMap]
  apply List.filterMap_congr
  intro u _
  rw [Option.map_map]
  rfl

theorem emitOf_fst_nodup (g : RGraph) (hn : (g.map Prod.fst).Nodup) :
    ((emitOf g).map Prod.fst).Nodup := by
  rw [map_fst_emitOf]
  refine List.Nodup.filterMap ?_ (toposortG_nodup g)
  intro a a' b hb hb'
  cases ho : outF g a with
  | none =>
    rw [ho] at hb
    cases hb
  | some v =>
    rw [ho] at hb
    cases ho' : outF g a' with
    | none =>
      rw [ho'] at hb'
      cases hb'
    | some v' =>
      rw [ho'] at hb'
      simp only [Option.map_some', Option.mem_def, Option.some.injEq] at hb hb'
      have ha : a < g.length :=
        lt_of_outF_isSome g a (by rw [ho]; exact fun h => Option.noConfusion h)
      have ha' : a' < g.length :=
        lt_of_outF_isSome g a' (by rw [ho']; exact fun h => Option.noConfusion h)
      exact nodePath_inj g hn a a' ha ha' (hb.trans hb'.symm)

theorem emitOf_snd_nodup (g : RGraph) (hn : (g.map Prod.fst).Nodup)
    (htarg : ∀ u v, outF g u = some v → v < g.length)
    (hindeg : ∀ u u' w, outF g u = some w → outF g u' = some w → u = u') :
    ((emitOf g).map Prod.snd).Nodup := by
  rw [map_snd_emitOf]
  refine List.Nodup.filterMap ?_ (toposortG_nodup g)
  intro a a' b hb hb'
  cases ho : outF g a with
  | none =>
    rw [ho] at hb
    cases hb
  | some v =>
    rw [ho] at hb
    cases ho' : outF g a' with
    | none =>
      rw [ho'] at hb'
      cases hb'
    | some v' =>
      rw [ho'] at hb'
      simp only [Option.map_some', Option.mem_def, Option.some.injEq] at hb hb'
      have hv := htarg a v ho
      have hv' := htarg a' v' ho'
      have : v = v' := nodePath_inj g hn v v' hv hv' (hb.trans hb'.symm)
      subst this
      exact hindeg a a' v ho ho'

theorem emitOf_pairwise (g : RGraph) (hnc : ∀ w, isCyclic g w = false)
    (hn : (g.map Prod.fst).Nodup)
    (htarg : ∀ u v, outF g u = some v → v < g.length) :
    (emitOf g).Pairwise (fun x y => y.2 ≠ x.1) := by
  unfold emitOf
  rw [List.pairwise_filterMap, List.pairwise_iff_get]
  intro i j hij b hb b' hb'
  cases ho : outF g ((toposortG g).get i) with
  | none =>
    rw [ho] at hb
    cases hb
  | some v =>
    rw [ho] at hb
    cases ho' : outF g ((toposortG g).get j) with
    | none =>
      rw [ho'] at hb'
      cases hb'
    | some v' =>
      rw [ho'] at hb'
      simp only [Option.map_some', Option.mem_def, Option.some.injEq] at hb hb'
      subst hb
      subst hb'
      intro hEq
      simp only at hEq
      have hv' := htarg _ v' ho'
      have hu : ((toposortG g).get i) < g.length := by
        rw [← toposortG_mem]
        exact List.get_mem _ _ _
      have hvv : v' = (toposortG g).get i :=
        nodePath_inj g hn v' _ hv' hu hEq
      rw [hvv] at ho'
      have := toposortG_edge_order g hnc _ _ ho' j.1 i.1 j.2 i.2 rfl rfl
      have hij' : i.1 < j.1 := hij
      omega

theorem emitOf_hfwd (g : RGraph) (hnc : ∀ w, isCyclic g w = false)
    (hn : (g.map Prod.fst).Nodup)
    (htarg : ∀ u v, outF g u = some v → v < g.length) :
    ∀ i j, (hi : i < (emitOf g).length) → (hj : j < (emitOf g).length) →
      ((emitOf g).get ⟨i, hi⟩).2 = ((emitOf g).get ⟨j, hj⟩).1 → i < j := by
  intro i j hi hj hEq
  rcases lt_trichotomy i j with h | h | h
  · exact h
  · exfalso
    subst h
    obtain ⟨u, v, ho, he⟩ := (emitOf_mem g _).mp (List.get_mem (emitOf g) i hi)
    rw [he] at hEq
    simp only at hEq
    have hv := htarg u v ho
    have hu : u < g.length :=
      lt_of_outF_isSome g u (by rw [ho]; exact fun h => Option.noConfusion h)
    have : v = u := nodePath_inj g hn v u hv hu hEq
    rw [this] at ho
    exact no_self_loop g u hnc ho
  · exfalso
    have hpw := emitOf_pairwise g hnc hn htarg
    rw [List.pairwise_iff_get] at hpw
    exact hpw ⟨j, hj⟩ ⟨i, hi⟩ h hEq

theorem LoopInv_disjoint (renames : List (RPath × RPath)) (fs : Fs)
    (g : RGraph) (deferred : List (RPath × RPath)) (gens : List (RPath × Nat))
    (counter : Nat) (hinv : LoopInv renames fs g deferred gens counter)
    (hexS : ∀ pr ∈ renames, pathExists fs pr.1 = true)
    (hdisj : ∀ e ∈ gens, e.1 ∉ renames.map Prod.snd) :
    ∀ q, q ∈ (initGraph renames).map Prod.fst → q ∉ gens.map Prod.fst := by
  intro q hq hq'
  obtain ⟨pr, hpr, hor⟩ := ((initGraph_inv renames).mem q).mp hq
  obtain ⟨e, he, heq⟩ := List.mem_map.mp hq'
  obtain ⟨hfreeT, _⟩ := hinv.genForm e he
  rcases hor with h | h
  · have := hexS pr hpr
    rw [← h, ← heq, hfreeT] at this
    cases this
  · apply hdisj e he
    rw [heq, h]
    exact List.mem_map_of_mem Prod.snd hpr

theorem LoopInv_deferred_mem (renames : List (RPath × RPath)) (fs : Fs)
    (g : RGraph) (deferred : List (RPath × RPath)) (gens : List (RPath × Nat))
    (counter : Nat) (hinv : LoopInv renames fs g deferred gens counter)
    (e : RPath × RPath) (he : e ∈ deferred) :
    ∃ k, k < gens.length ∧ deferred.getD k ("", "") = e ∧
    ∃ u v, u < (initGraph renames).length ∧
      outF g u = some ((initGraph renames).length + k) ∧
      outF (initGraph renames) u = some v ∧ v < (initGraph renames).length ∧
      e = ((gens.getD k ("", 0)).1, nodePath (initGraph renames) v) := by
  obtain ⟨k, hk, hke⟩ := List.mem_iff_getElem.mp he
  have hk' : k < gens.length := by
    rw [← hinv.dlen]
    exact hk
  obtain ⟨u, v, hum, hgu, h0u, hdk⟩ := hinv.redirects k hk'
  have hgetd : deferred.getD k ("", "") = e := by
    rw [List.getD_eq_getElem _ _ hk]
    exact hke
  refine ⟨k, hk', hgetd, u, v, hum, hgu, h0u, ?_, ?_⟩
  · exact ((initGraph_inv renames).sound u v h0u).2.1
  · rw [← hgetd]
    exact hdk

theorem LoopInv_deferred_fst (renames : List (RPath × RPath)) (fs : Fs)
    (g : RGraph) (deferred : List (RPath × RPath)) (gens : List (RPath × Nat))
    (counter : Nat) (hinv : LoopInv renames fs g deferred gens counter) :
    deferred.map Prod.fst = gens.map Prod.fst := by
  apply List.ext_getElem
  · simp [hinv.dlen]
  · intro n h1 h2
    have hn : n < deferred.length := by simpa using h1
    have hn' : n < gens.length := by simpa using h2
    obtain ⟨u, v, _, _, _, hdk⟩ := hinv.redirects n hn'
    rw [List.getElem_map, List.getElem_map]
    rw [List.getD_eq_getElem _ _ hn, List.getD_eq_getElem _ _ hn'] at hdk
    rw [hdk]

theorem LoopInv_deferred_snd_nodup (renames : List (RPath × RPath)) (fs : Fs)
    (g : RGraph) (deferred : List (RPath × RPath)) (gens : List (RPath × Nat))
    (counter : Nat) (hinv : LoopInv renames fs g deferred gens counter)
    (hdstN : (renames.map Prod.snd).Nodup) :
    (deferred.map Prod.snd).Nodup := by
  unfold List.Nodup
  rw [List.pairwise_map, List.pairwise_iff_get]
  intro i j hij hEq
  rw [List.get_eq_getElem, List.get_eq_getElem] at hEq
  have hi' : i.1 < gens.length := by
    rw [← hinv.dlen]
    exact i.2
  have hj' : j.1 < gens.length := by
    rw [← hinv.dlen]
    exact j.2
  obtain ⟨u, v, hum, hgu, h0u, hdk⟩ := hinv.redirects i.1 hi'
  obtain ⟨u', v', hum', hgu', h0u', hdk'⟩ := hinv.redirects j.1 hj'
  rw [List.getD_eq_getElem _ _ i.2] at hdk
  rw [List.getD_eq_getElem _ _ j.2] at hdk'
  rw [hdk, hdk'] at hEq
  simp only at hEq
  have hv := ((initGraph_inv renames).sound u v h0u).2.1
  have hv' := ((initGraph_inv renames).sound u' v' h0u').2.1
  have hvv : v = v' :=
    nodePath_inj (initGraph renames) (initGraph_inv renames).nodup v v' hv hv' hEq
  subst hvv
  have huu : u = u' := initGraph_indeg renames hdstN u u' v h0u h0u'
  subst huu
  rw [hgu] at hgu'
  injection hgu' with hgu'
  have : i.1 = j.1 := by omega
  have hij' : i.1 < j.1 := hij
  omega

theorem compiled_plan_correct (renames : List (RPath × RPath)) (fs : Fs)
    (g : RGraph) (deferred : List (RPath × RPath)) (gens : List (RPath × Nat))
    (counter : Nat)
    (hinv : LoopInv renames fs g deferred gens counter)
    (hnone : findCycleNode g = none)
    (hsrcN : (renames.map Prod.fst).Nodup)
    (hdstN : (renames.map Prod.snd).Nodup)
    (hex : ∀ pr ∈ renames, fsGet fs pr.1 ≠ none)
    (hfree : ∀ pr ∈ renames, pr.2 ∉ renames.map Prod.fst → fsGet fs pr.2 = none)
    (hdisj : ∀ e ∈ gens, e.1 ∉ renames.map Prod.snd) :
    ∃ fs', rename_files (planOf g ++ deferred) fs = (fs', none) ∧
      (∀ pr ∈ renames, fsGet fs' pr.2 = fsGet fs pr.1) ∧
      (∀ pr ∈ renames, pr.1 ∉ renames.map Prod.snd → fsGet fs' pr.1 = none) := by
  have hnc := findCycleNode_none g hnone
  have hexS : ∀ pr ∈ renames, pathExists fs pr.1 = true := by
    intro pr hpr
    exact (pathExists_iff fs pr.1).mpr (hex pr hpr)
  have hnG : (g.map Prod.fst).Nodup :=
    LoopInv_G_fst_nodup renames fs g deferred gens counter hinv hexS hdisj
  have hn0 := (initGraph_inv renames).nodup
  have htarg : ∀ u v, outF g u = some v → v < g.length :=
    fun u v h => (hinv.targLt u v h).1
  have hindeg := LoopInv_indeg renames fs g deferred gens counter hinv hdstN
  have hdis := LoopInv_disjoint renames fs g deferred gens counter hinv hexS hdisj
  have hedge0 : ∀ u w, outF g u = some w →
      ∃ v₀, outF (initGraph renames) u = some v₀ ∧
        (nodePath (initGraph renames) u, nodePath (initGraph renames) v₀) ∈ renames ∧
        nodePath g u = nodePath (initGraph renames) u := by
    intro u w h
    have hum := LoopInv_u_lt renames fs g deferred gens counter hinv u w h
    have hnp := LoopInv_nodePath_init renames fs g deferred gens counter hinv u hum
    rcases hinv.edges u hum with he | ⟨h1, _⟩
    · refine ⟨w, by rw [← he]; exact h, ?_, hnp⟩
      have := (initGraph_inv renames).sound u w (by rw [← he]; exact h)
      exact this.2.2
    · cases ho : outF (initGraph renames) u with
      | none => exact absurd ho h1
      | some v₀ =>
        exact ⟨v₀, rfl, ((initGraph_inv renames).sound u v₀ ho).2.2, hnp⟩
  have hsrcEdge : ∀ x, x < (initGraph renames).length →
      nodePath (initGraph renames) x ∈ renames.map Prod.fst →
      outF g x ≠ none := by
    intro x hx hmem
    obtain ⟨pr, hpr, hpr1⟩ := List.mem_map.mp hmem
    obtain ⟨u, v, huv, hpu, hpv⟩ := (initGraph_inv renames).complete hsrcN pr hpr
    have hu := ((initGraph_inv renames).sound u v huv).1
    have hux : u = x := nodePath_inj _ hn0 u x hu hx (by rw [hpu, hpr1])
    subst hux
    rcases hinv.edges u hx with he | ⟨_, k, hk, hk2⟩
    · rw [he, huv]
      exact fun hc => Option.noConfusion hc
    · rw [hk2]
      exact fun hc => Option.noConfusion hc
  have hsrcE := emitOf_fst_nodup g hnG
  have hdstE := emitOf_snd_nodup g hnG htarg hindeg
  have hfwdE := emitOf_hfwd g hnc hnG htarg
  have hexE : ∀ e ∈ emitOf g, fsGet fs e.1 ≠ none := by
    intro e he
    obtain ⟨u, v, ho, heq⟩ := (emitOf_mem g e).mp he
    obtain ⟨v₀, h0, hpr, hnp⟩ := hedge0 u v ho
    rw [heq]
    simp only
    rw [hnp]
    exact hex _ hpr
  have hfreeE : ∀ e ∈ emitOf g, e.2 ∉ (emitOf g).map Prod.fst →
      fsGet fs e.2 = none := by
    intro e he hnotsrc
    obtain ⟨u, v, ho, heq⟩ := (emitOf_mem g e).mp he
    rcases Nat.lt_or_ge v (initGraph renames).length with hvm | hvm
    · have h0 := LoopInv_orig_edge renames fs g deferred gens counter hinv u v ho hvm
      have hpr := ((initGraph_inv renames).sound u v h0).2.2
      have hnpv := LoopInv_nodePath_init renames fs g deferred gens counter hinv v hvm
      have hnotsrc0 : nodePath (initGraph renames) v ∉ renames.map Prod.fst := by
        intro hmem
        have hvedge := hsrcEdge v hvm hmem
        cases how : outF g v with
        | none => exact hvedge how
        | some w =>
          apply hnotsrc
          rw [heq]
          have hmm : (nodePath g v, nodePath g w) ∈ emitOf g :=
            (emitOf_mem g _).mpr ⟨v, w, how, rfl⟩
          exact List.mem_map_of_mem Prod.fst hmm
      have hval : fsGet fs (nodePath (initGraph renames) v) = none :=
        hfree _ hpr hnotsrc0
      rw [heq]
      simp only
      rw [hnpv]
      exact hval
    · have hvlen := htarg u v ho
      have hk : v - (initGraph renames).length < gens.length := by
        have := hinv.len
        omega
      have hnpv := LoopInv_nodePath_temp renames fs g deferred gens counter hinv
        (v - (initGraph renames).length) hk
      rw [show (initGraph renames).length + (v - (initGraph renames).length) = v
        from by omega] at hnpv
      have hmem : gens.getD (v - (initGraph renames).length) ("", 0) ∈ gens := by
        rw [List.getD_eq_getElem _ _ hk]
        exact List.getElem_mem hk
      obtain ⟨hfreeT, _⟩ := hinv.genForm _ hmem
      rw [heq]
      simp only
      rw [hnpv]
      exact fsGet_eq_none_of_not_exists fs _ hfreeT
  obtain ⟨fs₁, hrun1, hchar1⟩ :=
    rename_reverse_exec (emitOf g) fs hsrcE hdstE hfwdE hexE hfreeE
  have hsrcD : (deferred.map Prod.fst).Nodup := by
    rw [LoopInv_deferred_fst renames fs g deferred gens counter hinv]
    exact LoopInv_gens_fst_nodup renames fs g deferred gens counter hinv
  have hdstD := LoopInv_deferred_snd_nodup renames fs g deferred gens counter hinv hdstN
  have hfindTemp : ∀ k u, k < gens.length →
      outF g u = some ((initGraph renames).length + k) →
      (emitOf g).find? (fun e' => e'.2 == (gens.getD k ("", 0)).1) =
        some (nodePath g u, (gens.getD k ("", 0)).1) := by
    intro k u hk hgu
    have hnpt := LoopInv_nodePath_temp renames fs g deferred gens counter hinv k hk
    have hmemE : (nodePath g u, (gens.getD k ("", 0)).1) ∈ emitOf g := by
      rw [← hnpt]
      exact (emitOf_mem g _).mpr ⟨u, _, hgu, rfl⟩
    apply find?_eq_of_mem_of_unique _ _ _ hmemE (by simp)
    intro b hb hfb
    have hb2 : b.2 = (gens.getD k ("", 0)).1 := by simpa using hfb
    exact List.inj_on_of_nodup_map hdstE hb hmemE (by rw [hb2])
  have hfs1Temp : ∀ k u, k < gens.length →
      outF g u = some ((initGraph renames).length + k) →
      fsGet fs₁ ((gens.getD k ("", 0)).1) = fsGet fs (nodePath g u) := by
    intro k u hk hgu
    rw [hchar1]
    exact movedGet_dst_found _ _ _ _ (hfindTemp k u hk hgu)
  have hNoIn : ∀ k u v, k < gens.length →
      outF g u = some ((initGraph renames).length + k) →
      outF (initGraph renames) u = some v →
      ∀ x, outF g x ≠ some v := by
    intro k u v hk hgu h0u x hx
    have hvm := ((initGraph_inv renames).sound u v h0u).2.1
    have h0x := LoopInv_orig_edge renames fs g deferred gens counter hinv x v hx hvm
    have hxu : x = u := initGraph_indeg renames hdstN x u v h0x h0u
    subst hxu
    rw [hx] at hgu
    injection hgu with hgu
    omega
  have hexD : ∀ e ∈ deferred, fsGet fs₁ e.1 ≠ none := by
    intro e he
    obtain ⟨k, hk, _, u, v, hum, hgu, h0u, hvm, heq⟩ :=
      LoopInv_deferred_mem renames fs g deferred gens counter hinv e he
    rw [heq]
    simp only
    rw [hfs1Temp k u hk hgu]
    have hnp := LoopInv_nodePath_init renames fs g deferred gens counter hinv u hum
    rw [hnp]
    have hpr := ((initGraph_inv renames).sound u v h0u).2.2
    exact hex _ hpr
  have hfreeD : ∀ e ∈ deferred, fsGet fs₁ e.2 = none := by
    intro e he
    obtain ⟨k, hk, _, u, v, hum, hgu, h0u, hvm, heq⟩ :=
      LoopInv_deferred_mem renames fs g deferred gens counter hinv e he
    rw [heq]
    simp only
    rw [hchar1]
    have hfd : (emitOf g).find? (fun e' => e'.2 == nodePath (initGraph renames) v) =
        none := by
      rw [List.find?_eq_none]
      intro b hb hfb
      obtain ⟨x, y, hxy, hbeq⟩ := (emitOf_mem g b).mp hb
      have hb2 : nodePath g y = nodePath (initGraph renames) v := by
        rw [hbeq] at hfb
        simpa using hfb
      rcases Nat.lt_or_ge y (initGraph renames).length with hym | hym
      · have hnpy := LoopInv_nodePath_init renames fs g deferred gens counter hinv y hym
        rw [hnpy] at hb2
        have hyv : y = v := nodePath_inj _ hn0 y v hym hvm hb2
        subst hyv
        exact hNoIn k u y hk hgu h0u x hxy
      · have hylen := htarg x y hxy
        have hky : y - (initGraph renames).length < gens.length := by
          have := hinv.len
          omega
        have hnpy := LoopInv_nodePath_temp renames fs g deferred gens counter hinv
          (y - (initGraph renames).length) hky
        rw [show (initGraph renames).length + (y - (initGraph renames).length) = y
          from by omega] at hnpy
        have hgmem : nodePath g y ∈ gens.map Prod.fst := by
          rw [hnpy, List.getD_eq_getElem _ _ hky]
          exact List.mem_map_of_mem Prod.fst (List.getElem_mem hky)
        have hinit := nodePath_mem_map_fst (initGraph renames) v hvm
        rw [hb2] at hgmem
        exact hdis _ hinit hgmem
    cases hov : outF g v with
    | some w =>
      apply movedGet_src_found _ _ _ hfd
      have hnpv := LoopInv_nodePath_init renames fs g deferred gens counter hinv v hvm
      have hmemE : (nodePath g v, nodePath g w) ∈ emitOf g :=
        (emitOf_mem g _).mpr ⟨v, w, hov, rfl⟩
      apply Option.isSome_iff_ne_none.mpr
      intro hn'
      rw [List.find?_eq_none] at hn'
      exact hn' _ hmemE (by simp [hnpv])
    | none =>
      have hsn : (emitOf g).find? (fun e' => e'.1 == nodePath (initGraph renames) v) =
          none := by
        rw [List.find?_eq_none]
        intro b hb hfb
        obtain ⟨x, y, hxy, hbeq⟩ := (emitOf_mem g b).mp hb
        have hb1 : nodePath g x = nodePath (initGraph renames) v := by
          rw [hbeq] at hfb
          simpa using hfb
        have hxm := LoopInv_u_lt renames fs g deferred gens counter hinv x y hxy
        have hnpx := LoopInv_nodePath_init renames fs g deferred gens counter hinv x hxm
        rw [hnpx] at hb1
        have hxv : x = v := nodePath_inj _ hn0 x v hxm hvm hb1
        subst hxv
        rw [hov] at hxy
        cases hxy
      rw [movedGet_not_found _ _ _ hfd hsn]
      have hnosrc : nodePath (initGraph renames) v ∉ renames.map Prod.fst := by
        intro hmem
        exact hsrcEdge v hvm hmem hov
      have hpr := ((initGraph_inv renames).sound u v h0u).2.2
      exact hfree _ hpr hnosrc
  have hsepD : ∀ e ∈ deferred, ∀ e' ∈ deferred, e.1 ≠ e'.2 := by
    intro e he e' he'
    obtain ⟨k, hk, _, u, v, hum, hgu, h0u, hvm, heq⟩ :=
      LoopInv_deferred_mem renames fs g deferred gens counter hinv e he
    obtain ⟨k', hk', _, u', v', hum', hgu', h0u', hvm', heq'⟩ :=
      LoopInv_deferred_mem renames fs g deferred gens counter hinv e' he'
    rw [heq, heq']
    simp only
    intro hc
    have hgmem : (gens.getD k ("", 0)).1 ∈ gens.map Prod.fst := by
      rw [List.getD_eq_getElem _ _ hk]
      exact List.mem_map_of_mem Prod.fst (List.getElem_mem hk)
    have hinit := nodePath_mem_map_fst (initGraph renames) v' hvm'
    rw [hc] at hgmem
    exact hdis _ hinit hgmem
  obtain ⟨fs₂, hrun2, hchar2⟩ :=
    rename_deferred_exec deferred fs₁ hsrcD hdstD hexD hfreeD hsepD
  refine ⟨fs₂, ?_, ?_, ?_⟩
  · rw [planOf_eq_emitOf, rename_files_append, hrun1]
    exact hrun2
  · intro pr hpr
    obtain ⟨u, v, huv, hpu, hpv⟩ := (initGraph_inv renames).complete hsrcN pr hpr
    have hu := ((initGraph_inv renames).sound u v huv).1
    have hv := ((initGraph_inv renames).sound u v huv).2.1
    have hnpu := LoopInv_nodePath_init renames fs g deferred gens counter hinv u hu
    have hnpv := LoopInv_nodePath_init renames fs g deferred gens counter hinv v hv
    rw [hchar2]
    rcases hinv.edges u hu with he | ⟨_, k, hk, hku⟩
    · have hgv : outF g u = some v := by
        rw [he]
        exact huv
      have hd1 : deferred.find? (fun e' => e'.2 == pr.2) = none := by
        rw [List.find?_eq_none]
        intro b hb hfb
        obtain ⟨k', hk', _, u', v', hum', hgu', h0u', hvm', heq'⟩ :=
          LoopInv_deferred_mem renames fs g deferred gens counter hinv b hb
        have hb2 : nodePath (initGraph renames) v' = pr.2 := by
          rw [heq'] at hfb
          simpa using hfb
        rw [← hpv] at hb2
        have hvv : v' = v := nodePath_inj _ hn0 v' v hvm' hv hb2
        subst hvv
        exact hNoIn k' u' v' hk' hgu' h0u' u hgv
      have hd2 : deferred.find? (fun e' => e'.1 == pr.2) = none := by
        rw [List.find?_eq_none]
        intro b hb hfb
        obtain ⟨k', hk', _, u', v', hum', hgu', h0u', hvm', heq'⟩ :=
          LoopInv_deferred_mem renames fs g deferred gens counter hinv b hb
        have hb1 : (gens.getD k' ("", 0)).1 = pr.2 := by
          rw [heq'] at hfb
          simpa using hfb
        have hgmem : (gens.getD k' ("", 0)).1 ∈ gens.map Prod.fst := by
          rw [List.getD_eq_getElem _ _ hk']
          exact List.mem_map_of_mem Prod.fst (List.getElem_mem hk')
        have hinit : pr.2 ∈ (initGraph renames).map Prod.fst := by
          rw [← hpv]
          exact nodePath_mem_map_fst (initGraph renames) v hv
        rw [hb1] at hgmem
        exact hdis _ hinit hgmem
      rw [movedGet_not_found _ _ _ hd1 hd2, hchar1]
      have hmemE : (nodePath g u, nodePath g v) ∈ emitOf g :=
        (emitOf_mem g _).mpr ⟨u, v, hgv, rfl⟩
      have hfd : (emitOf g).find? (fun e' => e'.2 == pr.2) =
          some (nodePath g u, nodePath g v) := by
        apply find?_eq_of_mem_of_unique _ _ _ hmemE (by simp [hnpv, hpv])
        intro b hb hfb
        apply List.inj_on_of_nodup_map hdstE hb hmemE
        have hb2 : b.2 = pr.2 := by simpa using hfb
        rw [hb2]
        simp only
        rw [hnpv, hpv]
      rw [movedGet_dst_found _ _ _ _ hfd]
      simp only
      rw [hnpu, hpu]
    · obtain ⟨u', v', hum', hgu', h0u', hdk⟩ := hinv.redirects k hk
      obtain rfl : u' = u := hindeg u' u _ hgu' hku
      rw [huv] at h0u'
      injection h0u' with hvv
      subst hvv
      have hkd : k < deferred.length := by
        rw [hinv.dlen]
        exact hk
      have hdmem : ((gens.getD k ("", 0)).1, nodePath (initGraph renames) v) ∈
          deferred := by
        rw [← hdk, List.getD_eq_getElem _ _ hkd]
        exact List.getElem_mem hkd
      have hfd : deferred.find? (fun e' => e'.2 == pr.2) =
          some ((gens.getD k ("", 0)).1, nodePath (initGraph renames) v) := by
        apply find?_eq_of_mem_of_unique _ _ _ hdmem (by simp [hpv])
        intro b hb hfb
        apply List.inj_on_of_nodup_map hdstD hb hdmem
        have hb2 : b.2 = pr.2 := by simpa using hfb
        rw [hb2]
        simp only
        rw [hpv]
      rw [movedGet_dst_found _ _ _ _ hfd]
      simp only
      rw [hfs1Temp k u' hk hku, hnpu, hpu]
  · intro pr hpr hnd
    obtain ⟨u, v, huv, hpu, hpv⟩ := (initGraph_inv renames).complete hsrcN pr hpr
    have hu := ((initGraph_inv renames).sound u v huv).1
    have hv := ((initGraph_inv renames).sound u v huv).2.1
    have hnpu := LoopInv_nodePath_init renames fs g deferred gens counter hinv u hu
    rw [hchar2]
    have hd1 : deferred.find? (fun e' => e'.2 == pr.1) = none := by
      rw [List.find?_eq_none]
      intro b hb hfb
      obtain ⟨k', hk', _, u', v', hum', hgu', h0u', hvm', heq'⟩ :=
        LoopInv_deferred_mem renames fs g deferred gens counter hinv b hb
      have hb2 : nodePath (initGraph renames) v' = pr.1 := by
        rw [heq'] at hfb
        simpa using hfb
      have hprm := ((initGraph_inv renames).sound u' v' h0u').2.2
      apply hnd
      rw [← hb2]
      exact List.mem_map_of_mem Prod.snd hprm
    have hd2 : deferred.find? (fun e' => e'.1 == pr.1) = none := by
      rw [List.find?_eq_none]
      intro b hb hfb
      obtain ⟨k', hk', _, u', v', hum', hgu', h0u', hvm', heq'⟩ :=
        LoopInv_deferred_mem renames fs g deferred gens counter hinv b hb
      have hb1 : (gens.getD k' ("", 0)).1 = pr.1 := by
        rw [heq'] at hfb
        simpa using hfb
      have hgmem : (gens.getD k' ("", 0)).1 ∈ gens.map Prod.fst := by
        rw [List.getD_eq_getElem _ _ hk']
        exact List.mem_map_of_mem Prod.fst (List.getElem_mem hk')
      have hinit : pr.1 ∈ (initGraph renames).map Prod.fst := by
        rw [← hpu]
        exact nodePath_mem_map_fst (initGraph renames) u hu
      rw [hb1] at hgmem
      exact hdis _ hinit hgmem
    rw [movedGet_not_found _ _ _ hd1 hd2, hchar1]
    obtain ⟨w, hw⟩ : ∃ w, outF g u = some w := by
      rcases hinv.edges u hu with he | ⟨_, k, hk, hku⟩
      · exact ⟨v, by rw [he]; exact huv⟩
      · exact ⟨_, hku⟩
    have hfdE : (emitOf g).find? (fun e' => e'.2 == pr.1) = none := by
      rw [List.find?_eq_none]
      intro b hb hfb
      obtain ⟨x, y, hxy, hbeq⟩ := (emitOf_mem g b).mp hb
      have hb2 : nodePath g y = pr.1 := by
        rw [hbeq] at hfb
        simpa using hfb
      rcases Nat.lt_or_ge y (initGraph renames).length with hym | hym
      · have hnpy := LoopInv_nodePath_init renames fs g deferred gens counter hinv y hym
        have h0xy := LoopInv_orig_edge renames fs g deferred gens counter hinv x y hxy hym
        have hprm := ((initGraph_inv renames).sound x y h0xy).2.2
        apply hnd
        rw [← hb2, hnpy]
        exact List.mem_map_of_mem Prod.snd hprm
      · have hylen := htarg x y hxy
        have hky : y - (initGraph renames).length < gens.length := by
          have := hinv.len
          omega
        have hnpy := LoopInv_nodePath_temp renames fs g deferred gens counter hinv
          (y - (initGraph renames).length) hky
        rw [show (initGraph renames).length + (y - (initGraph renames).length) = y
          from by omega] at hnpy
        have hgmem : nodePath g y ∈ gens.map Prod.fst := by
          rw [hnpy, List.getD_eq_getElem _ _ hky]
          exact List.mem_map_of_mem Prod.fst (List.getElem_mem hky)
        have hinit : pr.1 ∈ (initGraph renames).map Prod.fst := by
          rw [← hpu]
          exact nodePath_mem_map_fst (initGraph renames) u hu
        rw [hb2] at hgmem
        exact hdis _ hinit hgmem
    have hmemE : (nodePath g u, nodePath g w) ∈ emitOf g :=
      (emitOf_mem g _).mpr ⟨u, w, hw, rfl⟩
    have hfsE : ((emitOf g).find? (fun e' => e'.1 == pr.1)).isSome = true := by
      apply Option.isSome_iff_ne_none.mpr
      intro hn'
      rw [List.find?_eq_none] at hn'
      exact hn' _ hmemE (by simp [hnpu, hpu])
    exact movedGet_src_found _ _ _ hfdE hfsE

/-! ### Evaluation helpers for concrete compiler runs -/

theorem compileRenames_eval0 (fs : Fs) (renames : List (RPath × RPath))
    (h : findCycleNode (initGraph renames) = none) :
    compileRenames fs renames = some (initGraph renames, [], [], 0) := by
  unfold compileRenames
  rw [breakLoop_eq, h]

theorem break_cycles_eval0 (fs : Fs) (renames : List (RPath × RPath))
    (h : findCycleNode (initGraph renames) = none) :
    break_cycles_and_fix_ordering fs renames = some (planOf (initGraph renames)) := by
  unfold break_cycles_and_fix_ordering
  rw [compileRenames_eval0 fs renames h]
  simp

theorem compileRenames_eval1 (fs : Fs) (renames : List (RPath × RPath))
    (u : Nat) (r : RGraph × (RPath × RPath) × (RPath × Nat) × Nat)
    (h1 : findCycleNode (initGraph renames) = some u)
    (h2 : breakAt fs (initGraph renames) u 0 = some r)
    (h3 : findCycleNode r.1 = none) :
    compileRenames fs renames = some (r.1, [r.2.1], [r.2.2.1], r.2.2.2) := by
  unfold compileRenames
  rw [breakLoop_eq, h1]
  dsimp only
  rw [h2]
  dsimp only
  rw [breakLoop_eq, h3]
  simp

/-! ### Extensionality of compilation in the filesystem -/

theorem probe_temp_ext (fs₁ fs₂ : Fs) (src : RPath) (fname : String) (c : Nat)
    (h : ∀ p, pathExists fs₁ p = pathExists fs₂ p) :
    probe_temp fs₁ src fname (fs₁.length + 1) c =
      probe_temp fs₂ src fname (fs₂.length + 1) c := by
  cases h₁ : probe_temp fs₁ src fname (fs₁.length + 1) c with
  | none =>
    exfalso
    have := probe_temp_isSome fs₁ src fname c
    rw [h₁] at this
    cases this
  | some r₁ =>
    cases h₂ : probe_temp fs₂ src fname (fs₂.length + 1) c with
    | none =>
      exfalso
      have := probe_temp_isSome fs₂ src fname c
      rw [h₂] at this
      cases this
    | some r₂ =>
      obtain ⟨t₁, c₁⟩ := r₁
      obtain ⟨t₂, c₂⟩ := r₂
      obtain ⟨hle₁, _, hform₁, hfree₁, hall₁⟩ := probe_temp_spec _ _ _ _ _ _ _ h₁
      obtain ⟨hle₂, _, hform₂, hfree₂, hall₂⟩ := probe_temp_spec _ _ _ _ _ _ _ h₂
      have hcc : c₁ = c₂ := by
        rcases lt_trichotomy c₁ c₂ with hlt | hEq | hgt
        · exfalso
          have hp := hall₂ c₁ hle₁ hlt
          rw [← h, ← hform₁, hfree₁] at hp
          cases hp
        · exact hEq
        · exfalso
          have hp := hall₁ c₂ hle₂ hgt
          rw [h, ← hform₂, hfree₂] at hp
          cases hp
      subst hcc
      rw [hform₁, hform₂]

theorem breakAt_ext (fs₁ fs₂ : Fs) (g : RGraph) (u c : Nat)
    (h : ∀ p, pathExists fs₁ p = pathExists fs₂ p) :
    breakAt fs₁ g u c = breakAt fs₂ g u c := by
  unfold breakAt
  cases ho : outF g u with
  | none => rfl
  | some v =>
    dsimp only
    cases hf : file_name (nodePath g u) with
    | none => rfl
    | some fname =>
      dsimp only
      rw [probe_temp_ext fs₁ fs₂ (nodePath g u) fname c h]

theorem breakLoop_ext (fs₁ fs₂ : Fs)
    (h : ∀ p, pathExists fs₁ p = pathExists fs₂ p) (n : Nat) :
    ∀ g counter deferred gens, cycleCard g ≤ n →
      breakLoop fs₁ g counter deferred gens =
        breakLoop fs₂ g counter deferred gens := by
  induction n with
  | zero =>
    intro g counter deferred gens hle
    cases hfind : findCycleNode g with
    | none =>
      rw [breakLoop_eq fs₁ g counter deferred gens,
        breakLoop_eq fs₂ g counter deferred gens, hfind]
    | some u =>
      exfalso
      obtain ⟨hcyc, hulen⟩ := findCycleNode_some g u hfind
      have hmem : u ∈ cycleNodes g := by
        unfold cycleNodes
        rw [List.mem_filter, List.mem_range]
        exact ⟨hulen, hcyc⟩
      have hpos : 0 < cycleCard g := by
        unfold cycleCard
        exact List.length_pos.mpr (List.ne_nil_of_mem hmem)
      omega
  | succ n ih =>
    intro g counter deferred gens hle
    cases hfind : findCycleNode g with
    | none =>
      rw [breakLoop_eq fs₁ g counter deferred gens,
        breakLoop_eq fs₂ g counter deferred gens, hfind]
    | some u =>
      rw [breakLoop_eq fs₁ g counter deferred gens,
        breakLoop_eq fs₂ g counter deferred gens, hfind]
      dsimp only
      rw [← breakAt_ext fs₁ fs₂ g u counter h]
      cases hb : breakAt fs₁ g u counter with
      | none => rfl
      | some r =>
        dsimp only
        obtain ⟨v, fname, temp, chosen, _, _, _, hr⟩ :=
          breakAt_spec fs₁ g u counter r hb
        apply ih
        rw [hr]
        dsimp only
        have := brokenGraph_cycleCard g u temp (findCycleNode_some g u hfind).1
        omega

/-! ### Claim theorems -/

/-- C3: every iteration of the cycle-breaking loop that breaks a cycle
strictly decreases the number of nodes lying on cycles, so the loop
cannot run forever; when every source has a file name the loop completes
successfully, the resulting graph reports no cycle node (the topological
sort succeeds) and the plan is produced. -/
theorem cycle_breaking_terminates (fs : Fs) (renames : List (RPath × RPath))
    (hfn : ∀ pr ∈ renames, (file_name pr.1).isSome = true) :
    (∀ g u counter r, findCycleNode g = some u →
      breakAt fs g u counter = some r → cycleCard r.1 < cycleCard g) ∧
    ∃ res, compileRenames fs renames = some res ∧ findCycleNode res.1 = none ∧
      break_cycles_and_fix_ordering fs renames = some (planOf res.1 ++ res.2.1) := by
  constructor
  · intro g u counter r hfind hb
    obtain ⟨v, fname, temp, chosen, _, _, _, hr⟩ := breakAt_spec fs g u counter r hb
    rw [hr]
    exact brokenGraph_cycleCard g u temp (findCycleNode_some g u hfind).1
  · obtain ⟨res, hres, _, hnone⟩ := breakLoop_inv renames fs hfn
      (cycleCard (initGraph renames)) (initGraph renames) [] [] 0 (le_refl _)
      (LoopInv_base renames fs)
    refine ⟨res, hres, hnone, ?_⟩
    unfold break_cycles_and_fix_ordering
    rw [show compileRenames fs renames = some res from hres]
    rfl

theorem cycle_breaking_terminates_witness :
    (∀ pr ∈ ([("a", "b"), ("b", "a")] : List (RPath × RPath)),
      (file_name pr.1).isSome = true) ∧
    ((∀ g u counter r, findCycleNode g = some u →
      breakAt [("a", "A"), ("b", "B")] g u counter = some r →
        cycleCard r.1 < cycleCard g) ∧
    ∃ res, compileRenames [("a", "A"), ("b", "B")] [("a", "b"), ("b", "a")] =
        some res ∧ findCycleNode res.1 = none ∧
      break_cycles_and_fix_ordering [("a", "A"), ("b", "B")]
        [("a", "b"), ("b", "a")] = some (planOf res.1 ++ res.2.1)) :=
  ⟨by decide, cycle_breaking_terminates _ _ (by decide)⟩

/-- C4: on an acyclic rename graph the plan is exactly the per-node
single outgoing edge emitted along a topological order (every edge goes
from an earlier to a later position of the order) and then reversed, and
the deferred steps are appended after the reversed main list. -/
theorem acyclic_plan_order (fs : Fs) (renames : List (RPath × RPath))
    (hacyc : findCycleNode (initGraph renames) = none) :
    break_cycles_and_fix_ordering fs renames =
      some ((emitOf (initGraph renames)).reverse ++ []) ∧
    emitOf (initGraph renames) =
      (toposortG (initGraph renames)).filterMap
        (fun u => (outF (initGraph renames) u).map
          (fun v => (nodePath (initGraph renames) u,
            nodePath (initGraph renames) v))) ∧
    List.Perm (toposortG (initGraph renames))
      (List.range (initGraph renames).length) ∧
    (∀ i j, (hi : i < (toposortG (initGraph renames)).length) →
      (hj : j < (toposortG (initGraph renames)).length) → ∀ v,
      outF (initGraph renames)
          ((toposortG (initGraph renames)).get ⟨i, hi⟩) = some v →
      (toposortG (initGraph renames)).get ⟨j, hj⟩ = v → i < j) ∧
    (∀ res, compileRenames fs renames = some res →
      break_cycles_and_fix_ordering fs renames =
        some (planOf res.1 ++ res.2.1)) := by
  refine ⟨?_, rfl, toposortG_perm _, ?_, ?_⟩
  · rw [break_cycles_eval0 fs renames hacyc, planOf_eq_emitOf]
    simp
  · intro i j hi hj v ho hv
    exact toposortG_edge_order (initGraph renames) (findCycleNode_none _ hacyc)
      _ v ho i j hi hj rfl hv
  · intro res hres
    unfold break_cycles_and_fix_ordering
    rw [hres]
    rfl

theorem acyclic_plan_order_witness :
    findCycleNode (initGraph [("a", "b")]) = none ∧
    break_cycles_and_fix_ordering [] [("a", "b")] =
      some ((emitOf (initGraph [("a", "b")])).reverse ++ []) :=
  ⟨by decide, (acyclic_plan_order [] [("a", "b")] (by decide)).1⟩

/-- C10: when every source path of the mapping has a file name (a
non-empty final `/`-component; with string paths UTF-8 validity is
automatic, so `to_str` cannot fail), the `unwrap` branches in the
placeholder generator are unreachable and the compiler returns a plan
instead of panicking. -/
theorem file_name_unwrap_safe (fs : Fs) (renames : List (RPath × RPath))
    (hfn : ∀ pr ∈ renames, (file_name pr.1).isSome = true) :
    (break_cycles_and_fix_ordering fs renames).isSome = true := by
  obtain ⟨res, hres, _, _⟩ := breakLoop_inv renames fs hfn
    (cycleCard (initGraph renames)) (initGraph renames) [] [] 0 (le_refl _)
    (LoopInv_base renames fs)
  unfold break_cycles_and_fix_ordering
  rw [show compileRenames fs renames = some res from hres]
  rfl

theorem file_name_unwrap_safe_witness :
    (∀ pr ∈ ([("x/a", "x/b"), ("x/b", "x/a")] : List (RPath × RPath)),
      (file_name pr.1).isSome = true) ∧
    (break_cycles_and_fix_ordering [("x/a", "A"), ("x/b", "B")]
      [("x/a", "x/b"), ("x/b", "x/a")]).isSome = true :=
  ⟨by decide, file_name_unwrap_safe _ _ (by decide)⟩

/-- C2 (amended): every placeholder generated during cycle breaking is,
at generation time, distinct from every entry of the live filesystem;
within one compile call the probing counters strictly increase along the
generation order and the generated placeholder paths are pairwise
distinct.  Distinctness from nodes already present in the rename graph
is not checked by the code and can fail (see the counterexample). -/
theorem temp_placeholder_spec (fs : Fs) (renames : List (RPath × RPath))
    (hfn : ∀ pr ∈ renames, (file_name pr.1).isSome = true) :
    ∃ res, compileRenames fs renames = some res ∧
      (∀ e ∈ res.2.2.1, pathExists fs e.1 = false) ∧
      (∀ k k', k < k' → k' < res.2.2.1.length →
        (res.2.2.1.getD k ("", 0)).2 < (res.2.2.1.getD k' ("", 0)).2) ∧
      (res.2.2.1.map Prod.fst).Nodup := by
  obtain ⟨res, hres, hinv, _⟩ := breakLoop_inv renames fs hfn
    (cycleCard (initGraph renames)) (initGraph renames) [] [] 0 (le_refl _)
    (LoopInv_base renames fs)
  refine ⟨res, hres, ?_, hinv.counters, ?_⟩
  · intro e he
    exact (hinv.genForm e he).1
  · exact LoopInv_gens_fst_nodup _ _ _ _ _ _ hinv

theorem temp_placeholder_spec_witness :
    (∀ pr ∈ ([("a", "b"), ("b", "a")] : List (RPath × RPath)),
      (file_name pr.1).isSome = true) ∧
    ∃ res, compileRenames [("a", "A"), ("b", "B")] [("a", "b"), ("b", "a")] =
        some res ∧
      (∀ e ∈ res.2.2.1, pathExists [("a", "A"), ("b", "B")] e.1 = false) ∧
      (∀ k k', k < k' → k' < res.2.2.1.length →
        (res.2.2.1.getD k ("", 0)).2 < (res.2.2.1.getD k' ("", 0)).2) ∧
      (res.2.2.1.map Prod.fst).Nodup :=
  ⟨by decide, temp_placeholder_spec _ _ (by decide)⟩

/-- C2 counterexample: the probe checks a candidate placeholder only
against the live filesystem (`temp_file.exists()`), never against the
nodes already in the rename graph; here the generated placeholder
`a.n0.tmp` is itself a graph node (the requested destination of `c`),
refuting the claimed distinctness from every node already present. -/
theorem temp_collides_with_graph_node :
    ∃ res, compileRenames [("a", "A"), ("b", "B"), ("c", "C")]
        [("a", "b"), ("b", "a"), ("c", "a.n0.tmp")] = some res ∧
      ∃ e ∈ res.2.2.1,
        e.1 ∈ (initGraph [("a", "b"), ("b", "a"), ("c", "a.n0.tmp")]).map
          Prod.fst := by
  refine ⟨([("a", some 4), ("b", some 0), ("c", some 3), ("a.n0.tmp", none),
      ("a.n0.tmp", none)], [("a.n0.tmp", "b")], [("a.n0.tmp", 0)], 1),
    ?_, ("a.n0.tmp", 0), by decide, by decide⟩
  exact compileRenames_eval1 _ _ 0
    ([("a", some 4), ("b", some 0), ("c", some 3), ("a.n0.tmp", none),
      ("a.n0.tmp", none)], ("a.n0.tmp", "b"), ("a.n0.tmp", 0), 1)
    (by decide) (by decide) (by decide)

/-- C8 (amended): compilation is a pure function of the mapping's
enumeration order and of the filesystem's path-existence predicate: for
the same enumeration, filesystems agreeing on `pathExists` produce
identical plans.  For the same mapping *set* enumerated in two different
orders the plans may differ (see the counterexample), so determinism
holds only relative to a fixed enumeration order. -/
theorem compile_deterministic (fs₁ fs₂ : Fs) (renames : List (RPath × RPath))
    (h : ∀ p, pathExists fs₁ p = pathExists fs₂ p) :
    break_cycles_and_fix_ordering fs₁ renames =
      break_cycles_and_fix_ordering fs₂ renames := by
  unfold break_cycles_and_fix_ordering compileRenames
  rw [breakLoop_ext fs₁ fs₂ h (cycleCard (initGraph renames))
    (initGraph renames) 0 [] [] (le_refl _)]

theorem compile_deterministic_witness :
    (∀ p, pathExists [("a", "A")] p = pathExists [("a", "B")] p) ∧
    break_cycles_and_fix_ordering [("a", "A")] [("a", "b"), ("b", "a")] =
      break_cycles_and_fix_ordering [("a", "B")] [("a", "b"), ("b", "a")] := by
  have h : ∀ p, pathExists [("a", "A")] p = pathExists [("a", "B")] p := by
    intro p
    unfold pathExists fsGet
    rw [find?_cons_eq, find?_cons_eq]
    cases ("a" == p) <;> rfl
  exact ⟨h, compile_deterministic _ _ _ h⟩

/-- C8 counterexample: the mapping is handed to the compiler as a
`HashMap`, whose iteration order is unspecified and may differ between
two invocations on the same mapping; the same two-pair mapping
enumerated in its two orders compiles, on the same filesystem, to two
different (differently ordered) plans, refuting the claimed
invocation-independence. -/
theorem plan_enumeration_order_dependent :
    List.Perm ([("a", "b"), ("c", "d")] : List (RPath × RPath))
      [("c", "d"), ("a", "b")] ∧
    break_cycles_and_fix_ordering [] [("a", "b"), ("c", "d")] =
      some [("c", "d"), ("a", "b")] ∧
    break_cycles_and_fix_ordering [] [("c", "d"), ("a", "b")] =
      some [("a", "b"), ("c", "d")] ∧
    break_cycles_and_fix_ordering [] [("a", "b"), ("c", "d")] ≠
      break_cycles_and_fix_ordering [] [("c", "d"), ("a", "b")] := by
  have h1 : break_cycles_and_fix_ordering [] [("a", "b"), ("c", "d")] =
      some [("c", "d"), ("a", "b")] := by
    rw [break_cycles_eval0 _ _ (by decide)]
    decide
  have h2 : break_cycles_and_fix_ordering [] [("c", "d"), ("a", "b")] =
      some [("a", "b"), ("c", "d")] := by
    rw [break_cycles_eval0 _ _ (by decide)]
    decide
  refine ⟨by decide, h1, h2, ?_⟩
  rw [h1, h2]
  decide

/-- C1 (amended): for a mapping with duplicate-free sources and
destinations whose sources all exist on disk, whose fresh destinations
are absent from disk, and — the amendment — whose paths are never hit by
a generated placeholder, executing the produced plan (main steps in
order, then the deferred steps) succeeds with no error: no step ever
finds its destination occupied, every original path ends up holding its
content at its intended final path (in a k-cycle, each node receives its
cyclic predecessor's content), and every pure source is vacated. -/
theorem rename_plan_correct (fs : Fs) (renames : List (RPath × RPath))
    (hfn : ∀ pr ∈ renames, (file_name pr.1).isSome = true)
    (hsrcN : (renames.map Prod.fst).Nodup)
    (hdstN : (renames.map Prod.snd).Nodup)
    (hex : ∀ pr ∈ renames, fsGet fs pr.1 ≠ none)
    (hfree : ∀ pr ∈ renames, pr.2 ∉ renames.map Prod.fst → fsGet fs pr.2 = none)
    (hdisj : ∀ res, compileRenames fs renames = some res →
      ∀ e ∈ res.2.2.1, e.1 ∉ renames.map Prod.snd) :
    ∃ plan fs', break_cycles_and_fix_ordering fs renames = some plan ∧
      rename_files plan fs = (fs', none) ∧
      (∀ pr ∈ renames, fsGet fs' pr.2 = fsGet fs pr.1) ∧
      (∀ pr ∈ renames, pr.1 ∉ renames.map Prod.snd → fsGet fs' pr.1 = none) := by
  obtain ⟨res, hres, hinv, hnone⟩ := breakLoop_inv renames fs hfn
    (cycleCard (initGraph renames)) (initGraph renames) [] [] 0 (le_refl _)
    (LoopInv_base renames fs)
  have hres' : compileRenames fs renames = some res := hres
  obtain ⟨fs', hrun, hrel, hvac⟩ := compiled_plan_correct renames fs
    res.1 res.2.1 res.2.2.1 res.2.2.2 hinv hnone hsrcN hdstN hex hfree
    (hdisj res hres')
  refine ⟨planOf res.1 ++ res.2.1, fs', ?_, hrun, hrel, hvac⟩
  unfold break_cycles_and_fix_ordering
  rw [hres']
  rfl

theorem rename_plan_correct_witness :
    ((∀ pr ∈ ([("a", "b"), ("b", "a")] : List (RPath × RPath)),
        (file_name pr.1).isSome = true) ∧
      ((["a", "b"] : List RPath)).Nodup ∧
      ((["b", "a"] : List RPath)).Nodup ∧
      (∀ pr ∈ ([("a", "b"), ("b", "a")] : List (RPath × RPath)),
        fsGet [("a", "A"), ("b", "B")] pr.1 ≠ none) ∧
      (∀ pr ∈ ([("a", "b"), ("b", "a")] : List (RPath × RPath)),
        pr.2 ∉ ([("a", "b"), ("b", "a")] : List (RPath × RPath)).map Prod.fst →
        fsGet [("a", "A"), ("b", "B")] pr.2 = none) ∧
      (∀ res, compileRenames [("a", "A"), ("b", "B")] [("a", "b"), ("b", "a")] =
          some res → ∀ e ∈ res.2.2.1,
        e.1 ∉ ([("a", "b"), ("b", "a")] : List (RPath × RPath)).map Prod.snd)) ∧
    ∃ plan fs', break_cycles_and_fix_ordering [("a", "A"), ("b", "B")]
        [("a", "b"), ("b", "a")] = some plan ∧
      rename_files plan [("a", "A"), ("b", "B")] = (fs', none) ∧
      (∀ pr ∈ ([("a", "b"), ("b", "a")] : List (RPath × RPath)),
        fsGet fs' pr.2 = fsGet [("a", "A"), ("b", "B")] pr.1) ∧
      (∀ pr ∈ ([("a", "b"), ("b", "a")] : List (RPath × RPath)),
        pr.1 ∉ ([("a", "b"), ("b", "a")] : List (RPath × RPath)).map Prod.snd →
        fsGet fs' pr.1 = none) := by
  have hdisj : ∀ res, compileRenames [("a", "A"), ("b", "B")]
      [("a", "b"), ("b", "a")] = some res → ∀ e ∈ res.2.2.1,
      e.1 ∉ ([("a", "b"), ("b", "a")] : List (RPath × RPath)).map Prod.snd := by
    intro res h
    rw [compileRenames_eval1 _ _ 0
      ([("a", some 2), ("b", some 0), ("a.n0.tmp", none)],
        ("a.n0.tmp", "b"), ("a.n0.tmp", 0), 1)
      (by decide) (by decide) (by decide)] at h
    injection h with h
    subst h
    decide
  exact ⟨⟨by decide, by decide, by decide, by decide, by decide, hdisj⟩,
    rename_plan_correct [("a", "A"), ("b", "B")] [("a", "b"), ("b", "a")]
      (by decide) (by decide) (by decide) (by decide) (by decide) hdisj⟩

/-- C1 counterexample: the mapping `{b1 → a.n0.tmp, a → c, c → a}` has
duplicate-free sources and destinations, all sources exist on disk and
the fresh destination `a.n0.tmp` is absent — yet the placeholder minted
to break the cycle `a ↔ c` is exactly the pending mapping destination
`a.n0.tmp` (the probe consults only the filesystem), so replaying the
produced plan aborts with a collision instead of relocating every
original path to its final path. -/
theorem plan_correctness_cex :
    (((([("b1", "a.n0.tmp"), ("a", "c"), ("c", "a")] :
        List (RPath × RPath))).map Prod.fst).Nodup ∧
      ((([("b1", "a.n0.tmp"), ("a", "c"), ("c", "a")] :
        List (RPath × RPath))).map Prod.snd).Nodup ∧
      (∀ pr ∈ ([("b1", "a.n0.tmp"), ("a", "c"), ("c", "a")] :
          List (RPath × RPath)),
        fsGet [("a", "A"), ("b1", "B"), ("c", "C")] pr.1 ≠ none) ∧
      (∀ pr ∈ ([("b1", "a.n0.tmp"), ("a", "c"), ("c", "a")] :
          List (RPath × RPath)),
        pr.2 ∉ ([("b1", "a.n0.tmp"), ("a", "c"), ("c", "a")] :
          List (RPath × RPath)).map Prod.fst →
        fsGet [("a", "A"), ("b1", "B"), ("c", "C")] pr.2 = none)) ∧
    ∃ plan, break_cycles_and_fix_ordering [("a", "A"), ("b1", "B"), ("c", "C")]
        [("b1", "a.n0.tmp"), ("a", "c"), ("c", "a")] = some plan ∧
      (rename_files plan [("a", "A"), ("b1", "B"), ("c", "C")]).2 ≠ none := by
  refine ⟨⟨by decide, by decide, by decide, by decide⟩,
    [("a", "a.n0.tmp"), ("b1", "a.n0.tmp"), ("c", "a"), ("a.n0.tmp", "c")],
    ?_, by decide⟩
  have hc : compileRenames [("a", "A"), ("b1", "B"), ("c", "C")]
      [("b1", "a.n0.tmp"), ("a", "c"), ("c", "a")] =
      some ([("b1", some 1), ("a.n0.tmp", none), ("a", some 4), ("c", some 2),
        ("a.n0.tmp", none)], [("a.n0.tmp", "c")], [("a.n0.tmp", 0)], 1) :=
    compileRenames_eval1 _ _ 2
      ([("b1", some 1), ("a.n0.tmp", none), ("a", some 4), ("c", some 2),
        ("a.n0.tmp", none)], ("a.n0.tmp", "c"), ("a.n0.tmp", 0), 1)
      (by decide) (by decide) (by decide)
  unfold break_cycles_and_fix_ordering
  rw [hc]
  decide
